import Mathlib

/-!
UNCALLED: streaming signal normaliser.

Shallow embedding of `src/src/normalizer.cpp` (class `Normalizer`) and of the
declarations of `src/seed_tracker.hpp` (classes `ReadAln` and `SeedTracker`).

* Samples and the running statistics live in an arbitrary field `α`
  ("exact arithmetic"); theorems that need a square root instantiate `α := ℝ`.
* The counters are `u32`: the source types the argument of `reset`, the locals
  and the results of `unread_size` and `skip_unread` so, and the members `n_`,
  `rd_`, `wr_` (declared in `normalizer.hpp`) are taken to be `u32` as well.
  They are natural numbers here and every arithmetic operation on them is
  reduced modulo `2 ^ 32` exactly where the source operation can wrap.
* `std::vector<float>` is a `List α`.  Reading a slot outside the vector yields
  `0` and writing outside it does nothing; `x % 0 = x`.  The source has undefined
  behaviour in those situations, and they do not occur in the states reached
  through `reset c` with `1 ≤ c` or `set_signal s` with `s ≠ []`.
* The two floating-point divisions of `at` are guarded: the embedding returns
  `none` where the source divides by zero.
-/

namespace Uncalled

/-- Wrapping `u32` addition `a + b`. -/
def add32 (a b : Nat) : Nat := (a + b) % 4294967296

/-- Wrapping `u32` subtraction `a - b` (for operands below `2 ^ 32`). -/
def sub32 (a b : Nat) : Nat := (a + 4294967296 - b % 4294967296) % 4294967296

/-- `std::vector::resize(k)`: truncate, or pad with value-initialised (zero) slots. -/
def resize {α : Type} [Zero α] (v : List α) (k : Nat) : List α :=
  v.take k ++ List.replicate (k - v.length) 0

/-- Data members of `class Normalizer`. -/
structure Normalizer (α : Type) where
  tgt_mean_ : α
  tgt_stdv_ : α
  signal_ : List α
  mean_ : α
  varsum_ : α
  n_ : Nat
  rd_ : Nat
  wr_ : Nat
  is_full_ : Bool
  is_empty_ : Bool
deriving DecidableEq, Repr

namespace Normalizer

variable {α : Type} [Field α] [DecidableEq α]

/-- `Normalizer::Normalizer()`: a buffer of 6000 zero slots, all statistics and
cursors cleared.  The default constructor leaves the two targets unset, so they
are arguments here. -/
def default_ctor (tgt_mean tgt_stdv : α) : Normalizer α :=
  { tgt_mean_ := tgt_mean
    tgt_stdv_ := tgt_stdv
    signal_ := List.replicate 6000 0
    mean_ := 0
    varsum_ := 0
    n_ := 0
    rd_ := 0
    wr_ := 0
    is_full_ := false
    is_empty_ := true }

/-- `Normalizer::set_target`. -/
def set_target (s : Normalizer α) (tgt_mean tgt_stdv : α) : Normalizer α :=
  { s with tgt_mean_ := tgt_mean, tgt_stdv_ := tgt_stdv }

/-- `Normalizer::set_signal`: batch load, mean and sum of squared deviations
computed by the two loops of the source. -/
def set_signal (s : Normalizer α) (signal : List α) : Normalizer α :=
  let n := signal.length % 4294967296
  let mean := (signal.foldl (fun acc e => acc + e) 0) / (n : α)
  let varsum := signal.foldl (fun acc e => acc + (e - mean) ^ 2) 0
  { s with
    signal_ := signal
    n_ := n
    rd_ := 0
    wr_ := 0
    is_full_ := true
    is_empty_ := false
    mean_ := mean
    varsum_ := varsum }

/-- `Normalizer::push`: the returned flag is the source's return value. -/
def push (s : Normalizer α) (newevt : α) : Bool × Normalizer α :=
  if s.is_full_ then (false, s)
  else
    let oldevt := s.signal_.getD s.wr_ 0
    let sig := s.signal_.set s.wr_ newevt
    let wr := ((s.wr_ + 1) % 4294967296) % sig.length
    if s.n_ = sig.length then
      let oldmean := s.mean_
      let mean := s.mean_ + (newevt - oldevt) / (sig.length : α)
      let varsum := s.varsum_ + (newevt + oldevt - oldmean - mean) * (newevt - oldevt)
      (true, { s with
        signal_ := sig
        mean_ := mean
        varsum_ := varsum
        wr_ := wr
        is_empty_ := false
        is_full_ := decide (wr = s.rd_) })
    else
      let n := (s.n_ + 1) % 4294967296
      let dt1 := newevt - s.mean_
      let mean := s.mean_ + dt1 / (n : α)
      let dt2 := newevt - mean
      let varsum := s.varsum_ + dt1 * dt2
      (true, { s with
        signal_ := sig
        n_ := n
        mean_ := mean
        varsum_ := varsum
        wr_ := wr
        is_empty_ := false
        is_full_ := decide (wr = s.rd_) })

/-- `Normalizer::reset`. -/
def reset (s : Normalizer α) (buffer_size : Nat) : Normalizer α :=
  let sig :=
    if buffer_size ≠ 0 ∧ buffer_size ≠ s.signal_.length then resize s.signal_ buffer_size
    else s.signal_
  { s with
    n_ := 0
    rd_ := 0
    wr_ := 0
    mean_ := 0
    varsum_ := 0
    is_full_ := false
    is_empty_ := true
    signal_ := sig.set 0 0 }

/-- `Normalizer::at`, with both divisions guarded: `none` when `n_` is zero
(`varsum_ / n_`) or when the square root is zero (`tgt_stdv_ / sqrt(..)`).
The square-root function is an argument. -/
def at_ (sqrt : α → α) (s : Normalizer α) (i : Nat) : Option α :=
  if s.n_ = 0 then none
  else
    let r := sqrt (s.varsum_ / (s.n_ : α))
    if r = 0 then none
    else
      let scale := s.tgt_stdv_ / r
      let shift := s.tgt_mean_ - scale * s.mean_
      some (scale * s.signal_.getD i 0 + shift)

/-- `Normalizer::pop`: the value of `at(rd_)` and the state with the read cursor
advanced. -/
def pop (sqrt : α → α) (s : Normalizer α) : Option α × Normalizer α :=
  let e := at_ sqrt s s.rd_
  let rd := ((s.rd_ + 1) % 4294967296) % s.signal_.length
  (e, { s with rd_ := rd, is_empty_ := decide (rd = s.wr_), is_full_ := false })

/-- `Normalizer::unread_size`. -/
def unread_size (s : Normalizer α) : Nat :=
  if s.rd_ < s.wr_ then sub32 s.wr_ s.rd_
  else add32 (sub32 s.n_ s.rd_) s.wr_

/-- `Normalizer::skip_unread`: the returned number and the new state. -/
def skip_unread (s : Normalizer α) (nkeep : Nat) : Nat × Normalizer α :=
  if nkeep ≥ unread_size s then (0, s)
  else
    let new_rd :=
      if nkeep ≤ s.wr_ then sub32 s.wr_ nkeep
      else sub32 s.n_ (sub32 nkeep s.wr_)
    let nskip :=
      if new_rd > s.rd_ then sub32 new_rd s.rd_
      else add32 (sub32 s.n_ s.rd_) new_rd
    (nskip, { s with is_full_ := false, is_empty_ := decide (nkeep = 0), rd_ := new_rd })

/-- `Normalizer::empty`. -/
def empty (s : Normalizer α) : Bool := s.is_empty_

/-- `Normalizer::full`. -/
def full (s : Normalizer α) : Bool := s.is_full_

end Normalizer

open Normalizer

/-! ## Call sequences -/

/-- One call on a normaliser. -/
inductive Op (α : Type) where
  | push (newevt : α)
  | pop
  | skip_unread (nkeep : Nat)
deriving DecidableEq, Repr

section Runs

variable {α : Type} [Field α] [DecidableEq α]

/-- State after one call. -/
def step (sqrt : α → α) (s : Normalizer α) : Op α → Normalizer α
  | Op.push x => (s.push x).2
  | Op.pop => (s.pop sqrt).2
  | Op.skip_unread k => (s.skip_unread k).2

/-- State after a sequence of calls, first call first. -/
def run (sqrt : α → α) (s : Normalizer α) : List (Op α) → Normalizer α
  | [] => s
  | op :: ops => run sqrt (step sqrt s op) ops

/-- Every `pop` of the sequence is called in a state where `empty()` is false. -/
def pops_nonempty (sqrt : α → α) (s : Normalizer α) : List (Op α) → Bool
  | [] => true
  | Op.pop :: ops => !s.empty && pops_nonempty sqrt (step sqrt s Op.pop) ops
  | op :: ops => pops_nonempty sqrt (step sqrt s op) ops

/-- Every `push` of the sequence returns true. -/
def pushes_accepted (sqrt : α → α) (s : Normalizer α) : List (Op α) → Bool
  | [] => true
  | Op.push x :: ops => (s.push x).1 && pushes_accepted sqrt (step sqrt s (Op.push x)) ops
  | op :: ops => pushes_accepted sqrt (step sqrt s op) ops

/-- Number of `push` calls of the sequence that return true. -/
def accepted_count (sqrt : α → α) (s : Normalizer α) : List (Op α) → Nat
  | [] => 0
  | Op.push x :: ops =>
      (if (s.push x).1 then 1 else 0) + accepted_count sqrt (step sqrt s (Op.push x)) ops
  | op :: ops => accepted_count sqrt (step sqrt s op) ops

/-- Number of `pop` calls in the sequence. -/
def pop_count : List (Op α) → Nat
  | [] => 0
  | Op.pop :: ops => 1 + pop_count ops
  | _ :: ops => pop_count ops

/-- Samples passed to `push`, in call order. -/
def pushed : List (Op α) → List α
  | [] => []
  | Op.push x :: ops => x :: pushed ops
  | _ :: ops => pushed ops

/-! ## Reference statistics -/

/-- Arithmetic mean of a list of samples. -/
def amean (l : List α) : α := l.sum / (l.length : α)

/-- Sum of squared deviations of the samples of `l` from `m`. -/
def sqdev (l : List α) (m : α) : α := (l.map (fun x => (x - m) ^ 2)).sum

/-- Population variance of a list of samples. -/
def pop_variance (l : List α) : α := sqdev l (amean l) / (l.length : α)

/-- Samples resident in the circular slot range from `rd_` up to, not
including, `wr_`: the unread samples. -/
def unread_slots (s : Normalizer α) : List α :=
  if s.rd_ < s.wr_ then (s.signal_.drop s.rd_).take (s.wr_ - s.rd_)
  else if s.is_empty_ then []
  else s.signal_.drop s.rd_ ++ s.signal_.take s.wr_

/-- Number of unread samples as told by the cursors and the two flags, in a
ring of capacity `c`. -/
def held (c : Nat) (s : Normalizer α) : Nat :=
  if s.is_empty_ then 0
  else if s.rd_ < s.wr_ then s.wr_ - s.rd_
  else c - s.rd_ + s.wr_

/-- The sequence consists of `push` and `pop` calls only. -/
def only_push_pop : List (Op α) → Bool
  | [] => true
  | Op.skip_unread _ :: _ => false
  | _ :: ops => only_push_pop ops

/-- Samples held in the statistics window: the first `n_` slots. -/
def window (s : Normalizer α) : List α := s.signal_.take s.n_

/-! ## Invariants -/

/-- Shape of a ring buffer of capacity `c`. -/
def RingOk (c : Nat) (s : Normalizer α) : Prop :=
  s.signal_.length = c ∧ 0 < c ∧ c < 4294967296 ∧ s.n_ ≤ c ∧ s.wr_ < c ∧
  (s.n_ < c → s.wr_ = s.n_)

/-- Cursor and flag consistency of a ring buffer of capacity `c`. -/
def CursorOk (c : Nat) (s : Normalizer α) : Prop :=
  s.rd_ < c ∧ (s.n_ < c → s.rd_ ≤ s.wr_) ∧
  (s.rd_ = s.wr_ ↔ (s.is_empty_ = true ∨ s.is_full_ = true)) ∧
  ¬ (s.is_empty_ = true ∧ s.is_full_ = true) ∧
  (s.is_full_ = true → s.n_ = c) ∧ (s.n_ = 0 → s.is_empty_ = true)

/-- The running moments are those of the window. -/
def StatsOk (s : Normalizer α) : Prop :=
  s.mean_ = amean (window s) ∧ s.varsum_ = sqdev (window s) s.mean_

/-- Flag and cursor predicate of the ring buffer: the two flags exclude each
other, the cursors coincide exactly when one flag is set, and cursors and
count stay within the capacity `signal_.size()`. -/
def FlagsOk (s : Normalizer α) : Prop :=
  ¬ (s.is_empty_ = true ∧ s.is_full_ = true) ∧
  (s.rd_ = s.wr_ ↔ (s.is_empty_ = true ∨ s.is_full_ = true)) ∧
  s.rd_ < s.signal_.length ∧ s.wr_ < s.signal_.length ∧ s.n_ ≤ s.signal_.length

/-- Samples of the `push` calls of the sequence that return true, in call order. -/
def accepted_samples (sqrt : α → α) (s : Normalizer α) : List (Op α) → List α
  | [] => []
  | Op.push x :: ops =>
      (if (s.push x).1 then [x] else []) ++ accepted_samples sqrt (step sqrt s (Op.push x)) ops
  | op :: ops => accepted_samples sqrt (step sqrt s op) ops

/-- Raw buffer slots `signal_[rd_]` read by the `pop` calls of the sequence
(through `at(rd_)`), in call order. -/
def popped_raw (sqrt : α → α) (s : Normalizer α) : List (Op α) → List α
  | [] => []
  | Op.pop :: ops => s.signal_.getD s.rd_ 0 :: popped_raw sqrt (step sqrt s Op.pop) ops
  | op :: ops => popped_raw sqrt (step sqrt s op) ops

/-- The `n_` samples of the statistics window in push order, oldest first:
the first `n_` slots while the buffer is filling, afterwards the slots from
`wr_` round to `wr_`. -/
def recent (s : Normalizer α) : List α :=
  if s.n_ < s.signal_.length then s.signal_.take s.n_
  else s.signal_.drop s.wr_ ++ s.signal_.take s.wr_

/-- A call sequence for a buffer of capacity 2: two accepted pushes, a rejected
push, a pop, another accepted push and a second pop. -/
def demo_calls : List (Op ℚ) :=
  [Op.push 1, Op.push 3, Op.push 9, Op.pop, Op.push 4, Op.pop]

end Runs

/-! ## Seed tracker

`src/seed_tracker.hpp` declares `ReadAln` and `SeedTracker`; the bodies of their
member functions and the types `Range` and `Result` of `seed_graph.hpp` are not
among the sources and are modelled from the specification. -/

/-- Modelled from the spec: `Range` is declared in `seed_graph.hpp`, which is
missing; a half-open coordinate interval from `start_` up to `end_`. -/
structure Range where
  start_ : Int
  end_ : Int
deriving DecidableEq, Repr

/-- Modelled from the spec: the seed hit `Result` is declared in `seed_graph.hpp`,
which is missing; the specification gives it as the tuple
`(refStart, refEnd, evtStart, evtEnd, length)`. -/
structure Result where
  ref_st : Int
  ref_en : Int
  evt_st : Int
  evt_en : Int
  len : Int
deriving DecidableEq, Repr

/-- Data members of `class ReadAln`: the alignment chain, spanning the reference
coordinates from `ref_st_.start_` up to `ref_en_` and the events from `evt_st_`
up to `evt_en_`. -/
structure ReadAln where
  ref_st_ : Range
  evt_st_ : Int
  ref_en_ : Int
  evt_en_ : Int
  total_len_ : Int
deriving DecidableEq, Repr

/-- Data member of `class SeedTracker`: `std::set<ReadAln> locations`, as the list
of its chains in the order of the set. -/
structure SeedTracker where
  locations : List ReadAln
deriving DecidableEq, Repr

namespace ReadAln

/-- Modelled from the spec: the constructors of `ReadAln` are only declared; a
new chain "initialized from" a seed hit takes the hit's two intervals and its
contribution length. -/
def of_seed (seed : Result) : ReadAln :=
  { ref_st_ := { start_ := seed.ref_st, end_ := seed.ref_en }
    evt_st_ := seed.evt_st
    ref_en_ := seed.ref_en
    evt_en_ := seed.evt_en
    total_len_ := seed.len }

/-- Modelled from the spec: the body of `ReadAln::update_next` is missing; merging
a chain into the record of a new hit keeps the chain's start, extends `ref_en_`
and `evt_en_` to cover the hit and adds the hit's contribution length to the
chain's total length. -/
def update_next (c new_loc : ReadAln) : ReadAln :=
  { ref_st_ := c.ref_st_
    evt_st_ := c.evt_st_
    ref_en_ := max c.ref_en_ new_loc.ref_en_
    evt_en_ := max c.evt_en_ new_loc.evt_en_
    total_len_ := c.total_len_ + new_loc.total_len_ }

end ReadAln

namespace SeedTracker

/-- Modelled from the spec: `SeedTracker::SeedTracker()`, whose body is missing:
a tracker without chains. -/
def init : SeedTracker := { locations := [] }

/-- Modelled from the spec: the merge predicate of `add_seed`, whose body is
missing: the reference gap `hit.refStart - chain.refEnd` and the event gap
`hit.evtStart - chain.evtEnd` are both non-negative and below the maximum
allowed gap, which the specification leaves open and is an argument here. -/
def mergeable (max_gap : Int) (seed : Result) (c : ReadAln) : Bool :=
  decide (0 ≤ seed.ref_st - c.ref_en_) && decide (seed.ref_st - c.ref_en_ < max_gap) &&
  decide (0 ≤ seed.evt_st - c.evt_en_) && decide (seed.evt_st - c.evt_en_ < max_gap)

/-- Modelled from the spec: the combined gap between a chain and a seed hit
(part of the missing body of `add_seed`). -/
def combined_gap (seed : Result) (c : ReadAln) : Int :=
  (seed.ref_st - c.ref_en_) + (seed.evt_st - c.evt_en_)

/-- Modelled from the spec: the choice among candidates in the missing body of
`add_seed`: smallest combined gap first, ties broken by the larger existing
total length. -/
def better (seed : Result) (a b : ReadAln) : Bool :=
  decide (combined_gap seed a < combined_gap seed b) ||
  (decide (combined_gap seed a = combined_gap seed b) && decide (b.total_len_ < a.total_len_))

/-- Modelled from the spec: the single best mergeable chain for a seed hit, if
any (part of the missing body of `add_seed`). -/
def best_candidate (max_gap : Int) (seed : Result) (l : List ReadAln) : Option ReadAln :=
  (l.filter (mergeable max_gap seed)).foldl
    (fun best c =>
      match best with
      | none => some c
      | some b => if better seed c b then some c else some b)
    none

/-- Modelled from the spec: insertion into the ordered collection; the body of
`operator<` on `ReadAln` is missing, the key is taken to be `ref_en_`. -/
def insert_chain (c : ReadAln) : List ReadAln → List ReadAln
  | [] => [c]
  | d :: ds => if c.ref_en_ < d.ref_en_ then c :: d :: ds else d :: insert_chain c ds

/-- Modelled from the spec: `SeedTracker::add_seed`, whose body is missing: merge
the hit into the best mergeable chain, removing the chain and reinserting it
under its new key, or insert a new chain initialized from the hit.  The `int`
the source function returns is not described by the specification and is left
out. -/
def add_seed (max_gap : Int) (t : SeedTracker) (seed : Result) : SeedTracker :=
  match best_candidate max_gap seed t.locations with
  | some c =>
      { locations :=
          insert_chain (c.update_next (ReadAln.of_seed seed)) (t.locations.erase c) }
  | none => { locations := insert_chain (ReadAln.of_seed seed) t.locations }

/-- Modelled from the spec: `SeedTracker::add_seeds`, whose body is missing:
`add_seed` on each hit in arrival order. -/
def add_seeds (max_gap : Int) (t : SeedTracker) (seeds : List Result) : SeedTracker :=
  seeds.foldl (add_seed max_gap) t

/-- Insertion step of the sort by descending total length. -/
def insert_by_len (c : ReadAln) : List ReadAln → List ReadAln
  | [] => [c]
  | d :: ds => if d.total_len_ ≤ c.total_len_ then c :: d :: ds else d :: insert_by_len c ds

/-- Sort by descending total length. -/
def sort_by_len : List ReadAln → List ReadAln
  | [] => []
  | c :: cs => insert_by_len c (sort_by_len cs)

/-- Modelled from the spec: `SeedTracker::get_alignments`, whose body is missing:
the chains whose total length is at least `min_len`, ordered by descending
total length; the tracker is returned as it was. -/
def get_alignments (t : SeedTracker) (min_len : Int) : List ReadAln × SeedTracker :=
  (sort_by_len (t.locations.filter (fun c => decide (min_len ≤ c.total_len_))), t)

end SeedTracker

/-- The three seed hits of the specification's example, in feeding order. -/
def example_seeds : List Result :=
  [ { ref_st := 100, ref_en := 110, evt_st := 5, evt_en := 6, len := 10 },
    { ref_st := 111, ref_en := 121, evt_st := 6, evt_en := 7, len := 10 },
    { ref_st := 500, ref_en := 510, evt_st := 50, evt_en := 51, len := 10 } ]

/-- The chain spanning the reference coordinates 100 up to 121, total length 20. -/
def example_chain_a : ReadAln :=
  { ref_st_ := { start_ := 100, end_ := 110 }, evt_st_ := 5, ref_en_ := 121, evt_en_ := 7,
    total_len_ := 20 }

/-- The chain spanning the reference coordinates 500 up to 510, total length 10. -/
def example_chain_b : ReadAln :=
  { ref_st_ := { start_ := 500, end_ := 510 }, evt_st_ := 50, ref_en_ := 510, evt_en_ := 51,
    total_len_ := 10 }

/-! ## Basic facts -/

set_option linter.unusedSectionVars false

section Basic

variable {α : Type} [Field α] [DecidableEq α]

theorem resize_length {β : Type} [Zero β] (v : List β) (k : Nat) : (resize v k).length = k := by
  unfold resize
  simp only [List.length_append, List.length_take, List.length_replicate]
  omega

theorem resize_replicate {β : Type} [Zero β] (m k : Nat) :
    resize (List.replicate m (0 : β)) k = List.replicate k 0 := by
  unfold resize
  rw [List.take_replicate, List.length_replicate, ← List.replicate_add]
  congr 1
  omega

theorem reset_length (s : Normalizer α) (c : Nat) (hc : 0 < c) :
    (s.reset c).signal_.length = c := by
  unfold reset
  by_cases h : c = s.signal_.length
  · simp [h]
  · have hc0 : c ≠ 0 := by omega
    simp [h, hc0, resize_length]

/-! ### Sums and squared deviations -/

theorem foldl_add_sum (l : List α) (a : α) :
    l.foldl (fun acc e => acc + e) a = a + l.sum := by
  induction l generalizing a with
  | nil => simp
  | cons x xs ih => simp [ih, add_assoc]

theorem sqdev_nil (m : α) : sqdev ([] : List α) m = 0 := by
  simp [sqdev]

theorem sqdev_cons (x : α) (l : List α) (m : α) :
    sqdev (x :: l) m = (x - m) ^ 2 + sqdev l m := by
  simp [sqdev]

theorem sqdev_append (l₁ l₂ : List α) (m : α) :
    sqdev (l₁ ++ l₂) m = sqdev l₁ m + sqdev l₂ m := by
  simp [sqdev]

theorem foldl_sqdev (l : List α) (m a : α) :
    l.foldl (fun acc e => acc + (e - m) ^ 2) a = a + sqdev l m := by
  induction l generalizing a with
  | nil => simp [sqdev_nil]
  | cons x xs ih => simp [ih, sqdev_cons, add_assoc]

/-- Moving the reference point of a sum of squared deviations. -/
theorem sqdev_shift (l : List α) (m m' : α) :
    sqdev l m' = sqdev l m + 2 * (m - m') * (l.sum - (l.length : α) * m)
      + (l.length : α) * (m - m') ^ 2 := by
  induction l with
  | nil => simp [sqdev_nil]
  | cons x xs ih =>
    simp only [sqdev_cons, List.sum_cons, List.length_cons, Nat.cast_succ, ih]
    ring

theorem sum_set (l : List α) (i : Nat) (x : α) (h : i < l.length) :
    (l.set i x).sum = l.sum - l.getD i 0 + x := by
  induction l generalizing i with
  | nil => simp at h
  | cons y ys ih =>
    cases i with
    | zero => simp [add_comm]
    | succ j =>
      have hj : j < ys.length := by simpa using h
      simp only [List.set_cons_succ, List.sum_cons, ih j hj, List.getD_cons_succ]
      ring

theorem sqdev_set (l : List α) (i : Nat) (x m : α) (h : i < l.length) :
    sqdev (l.set i x) m = sqdev l m - (l.getD i 0 - m) ^ 2 + (x - m) ^ 2 := by
  induction l generalizing i with
  | nil => simp at h
  | cons y ys ih =>
    cases i with
    | zero => simp [sqdev_cons, add_comm]
    | succ j =>
      have hj : j < ys.length := by simpa using h
      simp only [List.set_cons_succ, sqdev_cons, ih j hj, List.getD_cons_succ]
      ring

/-- Welford update: appending one sample to `k` samples. -/
theorem welford_step [CharZero α] (l : List α) (mean varsum x : α)
    (hm : mean * (l.length : α) = l.sum) (hv : varsum = sqdev l mean) :
    (mean + (x - mean) / ((l.length + 1 : Nat) : α)) * ((l.length + 1 : Nat) : α)
        = (l ++ [x]).sum ∧
    varsum + (x - mean) * (x - (mean + (x - mean) / ((l.length + 1 : Nat) : α)))
        = sqdev (l ++ [x]) (mean + (x - mean) / ((l.length + 1 : Nat) : α)) := by
  have hk : ((l.length + 1 : Nat) : α) ≠ 0 := Nat.cast_ne_zero.mpr (Nat.succ_ne_zero _)
  constructor
  · rw [List.sum_append, ← hm]
    push_cast at hk ⊢
    field_simp
    ring
  · rw [sqdev_append, sqdev_shift l mean, ← hm, ← hv, sqdev_cons, sqdev_nil]
    push_cast at hk ⊢
    field_simp
    ring

/-- Rolling-window update: replacing the sample of slot `i`. -/
theorem rolling_step [CharZero α] (l : List α) (i : Nat) (mean varsum x : α)
    (h : i < l.length)
    (hm : mean * (l.length : α) = l.sum) (hv : varsum = sqdev l mean) :
    (mean + (x - l.getD i 0) / (l.length : α)) * (l.length : α) = (l.set i x).sum ∧
    varsum + (x + l.getD i 0 - mean - (mean + (x - l.getD i 0) / (l.length : α)))
        * (x - l.getD i 0)
      = sqdev (l.set i x) (mean + (x - l.getD i 0) / (l.length : α)) := by
  have hk : (l.length : α) ≠ 0 := Nat.cast_ne_zero.mpr (by omega)
  constructor
  · rw [sum_set l i x h, ← hm]
    field_simp
    ring
  · rw [sqdev_shift (l.set i x) mean, sqdev_set l i x mean h, sum_set l i x h, ← hm, ← hv,
      List.length_set]
    field_simp
    ring

/-! ### The three shapes of `push` -/

theorem push_of_full (s : Normalizer α) (x : α) (h : s.is_full_ = true) :
    s.push x = (false, s) := by
  simp [push, h]

theorem push_roll (s : Normalizer α) (x : α) (h : s.is_full_ = false)
    (hn : s.n_ = s.signal_.length) :
    s.push x = (true, { s with
      signal_ := s.signal_.set s.wr_ x
      mean_ := s.mean_ + (x - s.signal_.getD s.wr_ 0) / (s.signal_.length : α)
      varsum_ := s.varsum_ + (x + s.signal_.getD s.wr_ 0 - s.mean_ -
        (s.mean_ + (x - s.signal_.getD s.wr_ 0) / (s.signal_.length : α))) *
          (x - s.signal_.getD s.wr_ 0)
      wr_ := ((s.wr_ + 1) % 4294967296) % s.signal_.length
      is_empty_ := false
      is_full_ := decide (((s.wr_ + 1) % 4294967296) % s.signal_.length = s.rd_) }) := by
  unfold push
  rw [if_neg (by simp [h])]
  simp only [List.length_set]
  rw [if_pos hn]

theorem push_grow (s : Normalizer α) (x : α) (h : s.is_full_ = false)
    (hn : s.n_ ≠ s.signal_.length) :
    s.push x = (true, { s with
      signal_ := s.signal_.set s.wr_ x
      n_ := (s.n_ + 1) % 4294967296
      mean_ := s.mean_ + (x - s.mean_) / (((s.n_ + 1) % 4294967296 : Nat) : α)
      varsum_ := s.varsum_ + (x - s.mean_) *
        (x - (s.mean_ + (x - s.mean_) / (((s.n_ + 1) % 4294967296 : Nat) : α)))
      wr_ := ((s.wr_ + 1) % 4294967296) % s.signal_.length
      is_empty_ := false
      is_full_ := decide (((s.wr_ + 1) % 4294967296) % s.signal_.length = s.rd_) }) := by
  unfold push
  rw [if_neg (by simp [h])]
  simp only [List.length_set]
  rw [if_neg hn]

theorem push_fst_of_not_full (s : Normalizer α) (x : α) (h : s.is_full_ = false) :
    (s.push x).1 = true := by
  by_cases hcap : s.n_ = s.signal_.length
  · rw [push_roll s x h hcap]
  · rw [push_grow s x h hcap]

theorem take_succ_set {β : Type} (l : List β) (n : Nat) (x : β) (h : n < l.length) :
    (l.set n x).take (n + 1) = l.take n ++ [x] := by
  induction l generalizing n with
  | nil => simp at h
  | cons y ys ih =>
    cases n with
    | zero => simp
    | succ j =>
      have hj : j < ys.length := by simpa using h
      simp [ih j hj]

/-! ### Preservation of the ring shape -/

theorem reset_ringOk (s : Normalizer α) (c : Nat) (hc : 0 < c) (hc32 : c < 4294967296) :
    RingOk c (s.reset c) := by
  refine ⟨reset_length s c hc, hc, hc32, ?_, ?_, ?_⟩ <;> simp [reset, hc]

theorem set_signal_ringOk (s : Normalizer α) (sig : List α) (h : sig ≠ [])
    (h32 : sig.length < 4294967296) : RingOk sig.length (s.set_signal sig) := by
  have hpos : 0 < sig.length := List.length_pos.mpr h
  have hmod : sig.length % 4294967296 = sig.length := Nat.mod_eq_of_lt h32
  refine ⟨rfl, hpos, h32, ?_, ?_, ?_⟩ <;> simp [set_signal, hmod, hpos]

theorem push_ringOk (c : Nat) (s : Normalizer α) (x : α) (h : RingOk c s) :
    RingOk c (s.push x).2 := by
  obtain ⟨hlen, hc, hc32, hn, hwr, hgrow⟩ := h
  cases hf : s.is_full_ with
  | true => rw [push_of_full s x hf]; exact ⟨hlen, hc, hc32, hn, hwr, hgrow⟩
  | false =>
    have hw1 : (s.wr_ + 1) % 4294967296 = s.wr_ + 1 := Nat.mod_eq_of_lt (by omega)
    have hlt : (s.wr_ + 1) % c < c := Nat.mod_lt _ hc
    by_cases hcap : s.n_ = s.signal_.length
    · rw [push_roll s x hf hcap]
      refine ⟨by simp [hlen], hc, hc32, hn, ?_, ?_⟩
      · simp only [hw1, hlen]; exact hlt
      · intro hlt2; simp only at hlt2; omega
    · rw [push_grow s x hf hcap]
      have hnc : s.n_ < c := by omega
      have hwn : s.wr_ = s.n_ := hgrow hnc
      have hn1 : (s.n_ + 1) % 4294967296 = s.n_ + 1 := Nat.mod_eq_of_lt (by omega)
      refine ⟨by simp [hlen], hc, hc32, ?_, ?_, ?_⟩
      · simp only [hn1]; omega
      · simp only [hw1, hlen]; exact hlt
      · simp only [hn1, hw1, hlen]
        intro hlt2
        rw [hwn]
        exact Nat.mod_eq_of_lt hlt2

theorem pop_ringOk (sqrt : α → α) (c : Nat) (s : Normalizer α) (h : RingOk c s) :
    RingOk c (s.pop sqrt).2 := by
  exact h

theorem skip_unread_ringOk (c : Nat) (s : Normalizer α) (k : Nat) (h : RingOk c s) :
    RingOk c (s.skip_unread k).2 := by
  unfold skip_unread
  split
  · exact h
  · exact h

theorem step_ringOk (sqrt : α → α) (c : Nat) (s : Normalizer α) (op : Op α)
    (h : RingOk c s) : RingOk c (step sqrt s op) := by
  cases op with
  | push x => exact push_ringOk c s x h
  | pop => exact pop_ringOk sqrt c s h
  | skip_unread k => exact skip_unread_ringOk c s k h

theorem run_ringOk (sqrt : α → α) (c : Nat) (s : Normalizer α) (ops : List (Op α))
    (h : RingOk c s) : RingOk c (run sqrt s ops) := by
  induction ops generalizing s with
  | nil => exact h
  | cons op ops ih => exact ih _ (step_ringOk sqrt c s op h)

/-! ### Preservation of the running moments -/

theorem amean_mul_length [CharZero α] (l : List α) : amean l * (l.length : α) = l.sum := by
  unfold amean
  cases l with
  | nil => simp
  | cons x xs =>
    have hne : (((x :: xs).length : Nat) : α) ≠ 0 := Nat.cast_ne_zero.mpr (by simp)
    exact div_mul_cancel₀ _ hne

theorem eq_amean_of_mul [CharZero α] (l : List α) (m : α) (hl : l ≠ [])
    (h : m * (l.length : α) = l.sum) : m = amean l := by
  have hne : (l.length : α) ≠ 0 := Nat.cast_ne_zero.mpr (by simpa using hl)
  unfold amean
  field_simp
  exact h

theorem reset_statsOk (s : Normalizer α) (c : Nat) : StatsOk (s.reset c) := by
  constructor <;> simp [reset, window, sqdev_nil, amean]

theorem set_signal_statsOk (s : Normalizer α) (sig : List α)
    (h32 : sig.length < 4294967296) : StatsOk (s.set_signal sig) := by
  have hmod : sig.length % 4294967296 = sig.length := Nat.mod_eq_of_lt h32
  constructor
  · simp only [set_signal, window, hmod, List.take_length, foldl_add_sum, zero_add, amean]
  · simp only [set_signal, window, hmod, List.take_length, foldl_sqdev, foldl_add_sum,
      zero_add]

theorem push_statsOk [CharZero α] (c : Nat) (s : Normalizer α) (x : α) (h : RingOk c s)
    (hs : StatsOk s) : StatsOk (s.push x).2 := by
  obtain ⟨hlen, hc, hc32, hn, hwr, hgrow⟩ := h
  obtain ⟨hm0, hv⟩ := hs
  have hm : s.mean_ * ((window s).length : α) = (window s).sum := by
    rw [hm0]; exact amean_mul_length _
  cases hf : s.is_full_ with
  | true => rw [push_of_full s x hf]; exact ⟨hm0, hv⟩
  | false =>
    by_cases hcap : s.n_ = s.signal_.length
    · rw [push_roll s x hf hcap]
      have hw : window s = s.signal_ := by simp [window, hcap]
      rw [hw] at hm hv
      have hi : s.wr_ < s.signal_.length := by omega
      obtain ⟨r1, r2⟩ := rolling_step s.signal_ s.wr_ s.mean_ s.varsum_ x hi hm hv
      have hw2 : (s.signal_.set s.wr_ x).take s.signal_.length = s.signal_.set s.wr_ x := by
        rw [← List.length_set s.signal_ s.wr_ x, List.take_length]
      have hne : s.signal_.set s.wr_ x ≠ [] := by
        intro h0
        have h1 : (s.signal_.set s.wr_ x).length = c := by rw [List.length_set]; exact hlen
        rw [h0] at h1
        simp at h1
        omega
      constructor
      · simp only [window, hcap, hw2]
        apply eq_amean_of_mul _ _ hne
        rw [List.length_set]
        exact r1
      · simp only [window, hcap, hw2]
        exact r2
    · rw [push_grow s x hf hcap]
      have hnc : s.n_ < c := by omega
      have hwn : s.wr_ = s.n_ := hgrow hnc
      have hn1 : (s.n_ + 1) % 4294967296 = s.n_ + 1 := Nat.mod_eq_of_lt (by omega)
      have hwl : (window s).length = s.n_ := by simp [window]; omega
      obtain ⟨r1, r2⟩ := welford_step (window s) s.mean_ s.varsum_ x hm hv
      rw [hwl] at r1 r2
      have hw2 : (s.signal_.set s.wr_ x).take (s.n_ + 1) = window s ++ [x] := by
        rw [hwn]; exact take_succ_set s.signal_ s.n_ x (by omega)
      constructor
      · simp only [window, hn1]
        rw [hw2]
        apply eq_amean_of_mul _ _ (by simp)
        rw [List.length_append, List.length_singleton, hwl]
        exact r1
      · simp only [window, hn1]
        rw [hw2]
        exact r2

theorem pop_statsOk (sqrt : α → α) (s : Normalizer α) (hs : StatsOk s) :
    StatsOk (s.pop sqrt).2 := by
  exact hs

theorem skip_unread_statsOk (s : Normalizer α) (k : Nat) (hs : StatsOk s) :
    StatsOk (s.skip_unread k).2 := by
  unfold skip_unread
  split
  · exact hs
  · exact hs

theorem step_statsOk [CharZero α] (sqrt : α → α) (c : Nat) (s : Normalizer α) (op : Op α)
    (h : RingOk c s) (hs : StatsOk s) : StatsOk (step sqrt s op) := by
  cases op with
  | push x => exact push_statsOk c s x h hs
  | pop => exact pop_statsOk sqrt s hs
  | skip_unread k => exact skip_unread_statsOk s k hs

theorem run_statsOk [CharZero α] (sqrt : α → α) (c : Nat) (s : Normalizer α)
    (ops : List (Op α)) (h : RingOk c s) (hs : StatsOk s) : StatsOk (run sqrt s ops) := by
  induction ops generalizing s with
  | nil => exact hs
  | cons op ops ih =>
    exact ih _ (step_ringOk sqrt c s op h) (step_statsOk sqrt c s op h hs)

/-- From the invariant to the closed forms of the two moments. -/
theorem statsOk_closed (s : Normalizer α) (hs : StatsOk s) :
    s.mean_ = amean (window s) ∧ s.varsum_ = sqdev (window s) (amean (window s)) := by
  obtain ⟨hm, hv⟩ := hs
  exact ⟨hm, by rw [← hm]; exact hv⟩

/-! ### A saturated window stays saturated -/

theorem step_saturated (sqrt : α → α) (s : Normalizer α) (op : Op α)
    (hn : s.n_ = s.signal_.length) :
    (step sqrt s op).n_ = (step sqrt s op).signal_.length := by
  cases op with
  | push x =>
    cases hf : s.is_full_ with
    | true => simp only [step, push_of_full s x hf]; exact hn
    | false => simp only [step, push_roll s x hf hn, List.length_set]; exact hn
  | pop => exact hn
  | skip_unread k =>
    simp only [step, skip_unread]
    split
    · exact hn
    · exact hn

theorem run_saturated (sqrt : α → α) (s : Normalizer α) (ops : List (Op α))
    (hn : s.n_ = s.signal_.length) :
    (run sqrt s ops).n_ = (run sqrt s ops).signal_.length := by
  induction ops generalizing s with
  | nil => exact hn
  | cons op ops ih => exact ih _ (step_saturated sqrt s op hn)

/-! ### Growth phase: the window is the list of pushed samples -/

theorem push_grow_window (c : Nat) (s : Normalizer α) (x : α) (h : RingOk c s)
    (hf : s.is_full_ = false) (hnc : s.n_ < c) :
    (s.push x).2.n_ = s.n_ + 1 ∧ window (s.push x).2 = window s ++ [x] := by
  obtain ⟨hlen, hc, hc32, hn, hwr, hgrow⟩ := h
  have hcap : s.n_ ≠ s.signal_.length := by omega
  have hwn : s.wr_ = s.n_ := hgrow hnc
  have hn1 : (s.n_ + 1) % 4294967296 = s.n_ + 1 := Nat.mod_eq_of_lt (by omega)
  rw [push_grow s x hf hcap]
  refine ⟨hn1, ?_⟩
  simp only [window, hn1]
  rw [hwn]
  exact take_succ_set s.signal_ s.n_ x (by omega)

theorem push_accepted_not_full (s : Normalizer α) (x : α) (h : (s.push x).1 = true) :
    s.is_full_ = false := by
  cases hf : s.is_full_ with
  | true => rw [push_of_full s x hf] at h; simp at h
  | false => rfl

theorem run_growth [CharZero α] (sqrt : α → α) (c : Nat) (s : Normalizer α)
    (ops : List (Op α)) (h : RingOk c s) (hs : StatsOk s)
    (hacc : pushes_accepted sqrt s ops = true)
    (hk : s.n_ + (pushed ops).length ≤ c) :
    (run sqrt s ops).n_ = s.n_ + (pushed ops).length ∧
    window (run sqrt s ops) = window s ++ pushed ops ∧ StatsOk (run sqrt s ops) := by
  induction ops generalizing s with
  | nil => simp [run, pushed, hs]
  | cons op ops ih =>
    cases op with
    | push x =>
      simp only [pushes_accepted, Bool.and_eq_true] at hacc
      simp only [pushed, List.length_cons] at hk
      have hf := push_accepted_not_full s x hacc.1
      obtain ⟨g1, g2⟩ := push_grow_window c s x h hf (by omega)
      have hr := push_ringOk c s x h
      have hst := push_statsOk c s x h hs
      obtain ⟨i1, i2, i3⟩ := ih (s.push x).2 hr hst hacc.2 (by rw [g1]; omega)
      refine ⟨?_, ?_, i3⟩
      · simp only [run, step, pushed, List.length_cons, i1, g1]; omega
      · simp only [run, step, pushed, i2, g2, List.append_assoc, List.singleton_append]
    | pop =>
      simp only [pushes_accepted] at hacc
      simp only [pushed] at hk
      exact ih (s.pop sqrt).2 (pop_ringOk sqrt c s h) (pop_statsOk sqrt s hs) hacc hk
    | skip_unread k =>
      simp only [pushes_accepted] at hacc
      simp only [pushed] at hk
      have hn : (s.skip_unread k).2.n_ = s.n_ := by
        unfold skip_unread; split <;> rfl
      have hw : window (s.skip_unread k).2 = window s := by
        unfold skip_unread; split <;> rfl
      have := ih (s.skip_unread k).2 (skip_unread_ringOk c s k h)
        (skip_unread_statsOk s k hs) hacc (by rw [hn]; exact hk)
      simpa only [run, step, pushed, hn, hw] using this

/-! ### Preservation of cursor and flag consistency -/

theorem reset_cursorOk (s : Normalizer α) (c : Nat) (hc : 0 < c) :
    CursorOk c (s.reset c) := by
  refine ⟨?_, ?_, ?_, ?_, ?_, ?_⟩ <;> simp [reset, hc]

theorem set_signal_cursorOk (s : Normalizer α) (sig : List α) (h : sig ≠ [])
    (h32 : sig.length < 4294967296) : CursorOk sig.length (s.set_signal sig) := by
  have hpos : 0 < sig.length := List.length_pos.mpr h
  have hmod : sig.length % 4294967296 = sig.length := Nat.mod_eq_of_lt h32
  refine ⟨?_, ?_, ?_, ?_, ?_, ?_⟩ <;> simp [set_signal, hmod, hpos, h]

theorem push_cursorOk (c : Nat) (s : Normalizer α) (x : α) (h : RingOk c s)
    (hk : CursorOk c s) : CursorOk c (s.push x).2 := by
  obtain ⟨hlen, hc, hc32, hn, hwr, hgrow⟩ := h
  obtain ⟨k1, k2, k3, k4, k5, k6⟩ := hk
  cases hf : s.is_full_ with
  | true => rw [push_of_full s x hf]; exact ⟨k1, k2, k3, k4, k5, k6⟩
  | false =>
    have hw1 : (s.wr_ + 1) % 4294967296 = s.wr_ + 1 := Nat.mod_eq_of_lt (by omega)
    have hlt : (s.wr_ + 1) % c < c := Nat.mod_lt _ hc
    by_cases hcap : s.n_ = s.signal_.length
    · rw [push_roll s x hf hcap]
      refine ⟨k1, ?_, ?_, ?_, ?_, ?_⟩
      · intro hlt2; simp only at hlt2; omega
      · simp only [hw1, hlen, Bool.false_eq_true, false_or, decide_eq_true_eq]
        exact eq_comm
      · simp
      · intro _; simp only; omega
      · intro h0; simp only at h0; omega
    · rw [push_grow s x hf hcap]
      have hnc : s.n_ < c := by omega
      have hwn : s.wr_ = s.n_ := hgrow hnc
      have hrw : s.rd_ ≤ s.wr_ := k2 hnc
      have hn1 : (s.n_ + 1) % 4294967296 = s.n_ + 1 := Nat.mod_eq_of_lt (by omega)
      refine ⟨k1, ?_, ?_, ?_, ?_, ?_⟩
      · simp only [hn1, hw1, hlen]
        intro hlt2
        rw [hwn, Nat.mod_eq_of_lt hlt2]
        omega
      · simp only [hw1, hlen, Bool.false_eq_true, false_or, decide_eq_true_eq]
        exact eq_comm
      · simp
      · simp only [hn1, hw1, hlen, decide_eq_true_eq]
        intro hfull
        by_contra hne
        have hlt2 : s.wr_ + 1 < c := by omega
        rw [Nat.mod_eq_of_lt hlt2] at hfull
        omega
      · simp only [hn1]; omega

theorem pop_cursorOk (sqrt : α → α) (c : Nat) (s : Normalizer α) (h : RingOk c s)
    (hk : CursorOk c s) (hne : s.empty = false) : CursorOk c (s.pop sqrt).2 := by
  obtain ⟨hlen, hc, hc32, hn, hwr, hgrow⟩ := h
  obtain ⟨k1, k2, k3, k4, k5, k6⟩ := hk
  simp only [empty] at hne
  have hr1 : (s.rd_ + 1) % 4294967296 = s.rd_ + 1 := Nat.mod_eq_of_lt (by omega)
  have hlt : (s.rd_ + 1) % c < c := Nat.mod_lt _ hc
  simp only [pop, hr1, hlen]
  refine ⟨hlt, ?_, ?_, ?_, ?_, ?_⟩
  · intro hnc
    simp only at hnc
    have hrw : s.rd_ ≤ s.wr_ := k2 hnc
    have hnf : s.is_full_ ≠ true := fun hf => by have := k5 hf; omega
    have hneq : s.rd_ ≠ s.wr_ := fun he => by
      rcases k3.mp he with h1 | h1
      · rw [hne] at h1; exact Bool.false_ne_true h1
      · exact hnf h1
    have hlt2 : s.rd_ + 1 < c := by omega
    simp only [Nat.mod_eq_of_lt hlt2]
    omega
  · simp
  · simp
  · simp
  · intro h0
    simp only at h0
    have := k6 h0
    rw [hne] at this
    exact absurd this Bool.false_ne_true

/-- In a consistent ring the `u32` arithmetic of `unread_size` does not wrap. -/
theorem unread_size_eq (c : Nat) (s : Normalizer α) (h : RingOk c s) (hk : CursorOk c s) :
    s.unread_size = if s.rd_ < s.wr_ then s.wr_ - s.rd_ else s.n_ - s.rd_ + s.wr_ := by
  obtain ⟨hlen, hc, hc32, hn, hwr, hgrow⟩ := h
  obtain ⟨k1, k2, k3, k4, k5, k6⟩ := hk
  unfold unread_size sub32 add32
  split <;> omega

theorem skip_unread_cursorOk (c : Nat) (s : Normalizer α) (k : Nat) (h : RingOk c s)
    (hk : CursorOk c s) : CursorOk c (s.skip_unread k).2 := by
  have hu := unread_size_eq c s h hk
  obtain ⟨hlen, hc, hc32, hn, hwr, hgrow⟩ := h
  obtain ⟨k1, k2, k3, k4, k5, k6⟩ := hk
  unfold skip_unread
  split
  · exact ⟨k1, k2, k3, k4, k5, k6⟩
  · rename_i hlt
    rw [hu] at hlt
    simp only [sub32]
    refine ⟨?_, ?_, ?_, ?_, ?_, ?_⟩
    · simp only; split at hlt <;> split <;> omega
    · simp only; intro hnc; split at hlt <;> split <;> omega
    · simp only [Bool.false_eq_true, or_false, decide_eq_true_eq]
      split at hlt <;> split <;> omega
    · simp
    · simp
    · simp only [decide_eq_true_eq]; intro h0; split at hlt <;> omega

theorem step_cursorOk (sqrt : α → α) (c : Nat) (s : Normalizer α) (op : Op α)
    (h : RingOk c s) (hk : CursorOk c s) (hp : pops_nonempty sqrt s [op] = true) :
    CursorOk c (step sqrt s op) := by
  cases op with
  | push x => exact push_cursorOk c s x h hk
  | pop =>
    simp only [pops_nonempty, Bool.and_true, Bool.not_eq_true'] at hp
    exact pop_cursorOk sqrt c s h hk hp
  | skip_unread k => exact skip_unread_cursorOk c s k h hk

theorem pops_nonempty_cons (sqrt : α → α) (s : Normalizer α) (op : Op α) (ops : List (Op α))
    (hp : pops_nonempty sqrt s (op :: ops) = true) :
    pops_nonempty sqrt s [op] = true ∧ pops_nonempty sqrt (step sqrt s op) ops = true := by
  cases op with
  | push x => simpa [pops_nonempty] using hp
  | pop => simpa [pops_nonempty] using hp
  | skip_unread k => simpa [pops_nonempty] using hp

theorem run_cursorOk (sqrt : α → α) (c : Nat) (s : Normalizer α) (ops : List (Op α))
    (h : RingOk c s) (hk : CursorOk c s) (hp : pops_nonempty sqrt s ops = true) :
    CursorOk c (run sqrt s ops) := by
  induction ops generalizing s with
  | nil => exact hk
  | cons op ops ih =>
    obtain ⟨p1, p2⟩ := pops_nonempty_cons sqrt s op ops hp
    exact ih _ (step_ringOk sqrt c s op h) (step_cursorOk sqrt c s op h hk p1) p2

/-! ### `skip_unread` in a consistent ring -/

theorem skip_unread_of_lt (s : Normalizer α) (k : Nat) (hlt : k < s.unread_size) :
    s.skip_unread k =
      ((if (if k ≤ s.wr_ then sub32 s.wr_ k else sub32 s.n_ (sub32 k s.wr_)) > s.rd_
          then sub32 (if k ≤ s.wr_ then sub32 s.wr_ k else sub32 s.n_ (sub32 k s.wr_)) s.rd_
          else add32 (sub32 s.n_ s.rd_)
            (if k ≤ s.wr_ then sub32 s.wr_ k else sub32 s.n_ (sub32 k s.wr_))),
       { s with
          is_full_ := false
          is_empty_ := decide (k = 0)
          rd_ := if k ≤ s.wr_ then sub32 s.wr_ k else sub32 s.n_ (sub32 k s.wr_) }) := by
  unfold skip_unread
  rw [if_neg (show ¬ (k ≥ s.unread_size) by omega)]

theorem sub32_eq (a b : Nat) (h : b ≤ a) (ha : a < 4294967296) : sub32 a b = a - b := by
  unfold sub32
  omega

theorem add32_eq (a b : Nat) (h : a + b < 4294967296) : add32 a b = a + b := by
  unfold add32
  omega

/-- The new read cursor computed by `skip_unread`, without wrap-around. -/
theorem skip_unread_new_rd (c : Nat) (s : Normalizer α) (k : Nat) (h : RingOk c s)
    (hk : CursorOk c s) (hlt : k < s.unread_size) :
    (if k ≤ s.wr_ then sub32 s.wr_ k else sub32 s.n_ (sub32 k s.wr_))
      = if k ≤ s.wr_ then s.wr_ - k else s.n_ + s.wr_ - k := by
  rw [unread_size_eq c s h hk] at hlt
  obtain ⟨hlen, hc, hc32, hn, hwr, hgrow⟩ := h
  obtain ⟨k1, k2, k3, k4, k5, k6⟩ := hk
  by_cases hkw : k ≤ s.wr_
  · rw [if_pos hkw, if_pos hkw, sub32_eq _ _ hkw (by omega)]
  · rw [if_neg hkw, if_neg hkw]
    have hrw : ¬ s.rd_ < s.wr_ := by
      intro hlt2
      rw [if_pos hlt2] at hlt
      omega
    rw [if_neg hrw] at hlt
    rw [sub32_eq k s.wr_ (by omega) (by omega), sub32_eq _ _ (by omega) (by omega)]
    omega

theorem skip_unread_fst (c : Nat) (s : Normalizer α) (k : Nat) (h : RingOk c s)
    (hk : CursorOk c s) (hlt : k < s.unread_size) :
    (s.skip_unread k).1 = s.unread_size - k := by
  have hnew := skip_unread_new_rd c s k h hk hlt
  have hu := unread_size_eq c s h hk
  rw [skip_unread_of_lt s k hlt]
  simp only [hnew]
  rw [hu] at hlt ⊢
  obtain ⟨hlen, hc, hc32, hn, hwr, hgrow⟩ := h
  obtain ⟨k1, k2, k3, k4, k5, k6⟩ := hk
  by_cases hrw : s.rd_ < s.wr_
  · rw [if_pos hrw] at hlt ⊢
    have hkw : k ≤ s.wr_ := by omega
    rw [if_pos hkw, if_pos (show s.wr_ - k > s.rd_ by omega), sub32_eq _ _ (by omega) (by omega)]
    omega
  · rw [if_neg hrw] at hlt ⊢
    by_cases hkw : k ≤ s.wr_
    · rw [if_pos hkw, if_neg (show ¬ (s.wr_ - k > s.rd_) by omega),
        sub32_eq _ _ (by omega) (by omega), add32_eq _ _ (by omega)]
      omega
    · rw [if_neg hkw, if_pos (show s.n_ + s.wr_ - k > s.rd_ by omega),
        sub32_eq _ _ (by omega) (by omega)]
      omega

/-- Keeping at least one sample: afterwards `unread_size` is the number kept. -/
theorem skip_unread_keeps_pos (c : Nat) (s : Normalizer α) (k : Nat) (h : RingOk c s)
    (hk : CursorOk c s) (hpos : 0 < k) (hlt : k < s.unread_size) :
    (s.skip_unread k).2.unread_size = k := by
  have hr2 := skip_unread_ringOk c s k h
  have hk2 := skip_unread_cursorOk c s k h hk
  rw [unread_size_eq c _ hr2 hk2]
  have hnew := skip_unread_new_rd c s k h hk hlt
  have hu := unread_size_eq c s h hk
  rw [skip_unread_of_lt s k hlt]
  simp only [hnew]
  rw [hu] at hlt
  obtain ⟨hlen, hc, hc32, hn, hwr, hgrow⟩ := h
  obtain ⟨k1, k2, k3, k4, k5, k6⟩ := hk
  by_cases hkw : k ≤ s.wr_
  · rw [if_pos hkw, if_pos (show s.wr_ - k < s.wr_ by omega)]
    omega
  · have hrw : ¬ s.rd_ < s.wr_ := by
      intro hlt2
      rw [if_pos hlt2] at hlt
      omega
    rw [if_neg hrw] at hlt
    rw [if_neg hkw, if_neg (show ¬ (s.n_ + s.wr_ - k < s.wr_) by omega)]
    omega

/-! ### Accounting of unread samples -/

theorem push_held (c : Nat) (s : Normalizer α) (x : α) (h : RingOk c s)
    (hk : CursorOk c s) :
    held c (s.push x).2 = held c s + (if (s.push x).1 then 1 else 0) := by
  obtain ⟨hlen, hc, hc32, hn, hwr, hgrow⟩ := h
  obtain ⟨k1, k2, k3, k4, k5, k6⟩ := hk
  cases hf : s.is_full_ with
  | true => rw [push_of_full s x hf]; simp
  | false =>
    have hw1 : (s.wr_ + 1) % 4294967296 = s.wr_ + 1 := Nat.mod_eq_of_lt (by omega)
    have hwr2 : ((s.push x).2.wr_ = (s.wr_ + 1) % c) ∧ (s.push x).2.rd_ = s.rd_ ∧
        (s.push x).2.is_empty_ = false ∧ (s.push x).1 = true := by
      by_cases hcap : s.n_ = s.signal_.length
      · rw [push_roll s x hf hcap]; simp [hw1, hlen]
      · rw [push_grow s x hf hcap]; simp [hw1, hlen]
    obtain ⟨e1, e2, e3, e4⟩ := hwr2
    simp only [held, e1, e2, e3, e4, if_true, Bool.false_eq_true, if_false]
    rw [hf] at k3
    simp only [Bool.false_eq_true, or_false] at k3
    by_cases hlast : s.wr_ + 1 < c
    · rw [Nat.mod_eq_of_lt hlast]
      cases he : s.is_empty_ with
      | true =>
        have : s.rd_ = s.wr_ := k3.mpr he
        simp [this]
      | false =>
        have hne : s.rd_ ≠ s.wr_ := fun e => by
          have := k3.mp e; rw [he] at this; exact Bool.false_ne_true this
        simp only [Bool.false_eq_true, if_false]
        split_ifs <;> omega
    · have hwc : s.wr_ + 1 = c := by omega
      rw [hwc, Nat.mod_self]
      cases he : s.is_empty_ with
      | true =>
        have : s.rd_ = s.wr_ := k3.mpr he
        simp only [if_true]
        rw [if_neg (by omega)]
        omega
      | false =>
        have hne : s.rd_ ≠ s.wr_ := fun e => by
          have := k3.mp e; rw [he] at this; exact Bool.false_ne_true this
        simp only [Bool.false_eq_true, if_false]
        split_ifs <;> omega

theorem pop_held (sqrt : α → α) (c : Nat) (s : Normalizer α) (h : RingOk c s)
    (hk : CursorOk c s) (hne : s.empty = false) :
    held c (s.pop sqrt).2 + 1 = held c s := by
  obtain ⟨hlen, hc, hc32, hn, hwr, hgrow⟩ := h
  obtain ⟨k1, k2, k3, k4, k5, k6⟩ := hk
  simp only [empty] at hne
  have hr1 : (s.rd_ + 1) % 4294967296 = s.rd_ + 1 := Nat.mod_eq_of_lt (by omega)
  simp only [held, pop, hr1, hlen, hne, Bool.false_eq_true, if_false, decide_eq_true_eq]
  by_cases hlast : s.rd_ + 1 < c
  · rw [Nat.mod_eq_of_lt hlast]
    split_ifs <;> omega
  · have hrc : s.rd_ + 1 = c := by omega
    rw [hrc, Nat.mod_self]
    split_ifs <;> omega

/-- In a non-empty consistent ring `unread_size` is the number of unread samples. -/
theorem unread_size_eq_held (c : Nat) (s : Normalizer α) (h : RingOk c s)
    (hk : CursorOk c s) (hne : s.empty = false) : s.unread_size = held c s := by
  rw [unread_size_eq c s h hk]
  obtain ⟨hlen, hc, hc32, hn, hwr, hgrow⟩ := h
  obtain ⟨k1, k2, k3, k4, k5, k6⟩ := hk
  simp only [empty] at hne
  simp only [held, hne, Bool.false_eq_true, if_false]
  by_cases hrw : s.rd_ < s.wr_
  · rw [if_pos hrw, if_pos hrw]
  · rw [if_neg hrw, if_neg hrw]
    have hnc : s.n_ = c := by
      by_contra hcon
      have hlt : s.n_ < c := by omega
      have h1 := k2 hlt
      have h2 : s.rd_ = s.wr_ := by omega
      rcases k3.mp h2 with h3 | h3
      · rw [hne] at h3; exact Bool.false_ne_true h3
      · exact hcon (k5 h3)
    rw [hnc]

theorem run_held (sqrt : α → α) (c : Nat) (s : Normalizer α) (ops : List (Op α))
    (h : RingOk c s) (hk : CursorOk c s) (hp : pops_nonempty sqrt s ops = true)
    (ho : only_push_pop ops = true) :
    accepted_count sqrt s ops + held c s = pop_count ops + held c (run sqrt s ops) := by
  induction ops generalizing s with
  | nil => simp [accepted_count, pop_count, run]
  | cons op ops ih =>
    obtain ⟨p1, p2⟩ := pops_nonempty_cons sqrt s op ops hp
    have hr2 := step_ringOk sqrt c s op h
    have hk2 := step_cursorOk sqrt c s op h hk p1
    cases op with
    | push x =>
      have := ih _ hr2 hk2 p2 (by simpa [only_push_pop] using ho)
      have hh := push_held c s x h hk
      simp only [step] at this
      simp only [accepted_count, pop_count, run, step]
      omega
    | pop =>
      have := ih _ hr2 hk2 p2 (by simpa [only_push_pop] using ho)
      simp only [pops_nonempty, Bool.and_true, Bool.not_eq_true'] at p1
      have hh := pop_held sqrt c s h hk p1
      simp only [step] at this
      simp only [accepted_count, pop_count, run, step]
      omega
    | skip_unread k => simp [only_push_pop] at ho

/-- Where the buffer is not empty, `unread_size` plus the pops equals the accepted pushes. -/
theorem unread_accounting_nonempty (sqrt : α → α) (s0 : Normalizer α) (c : Nat)
    (ops : List (Op α)) (hc : 1 ≤ c) (hc32 : c < 4294967296)
    (hp : pops_nonempty sqrt (s0.reset c) ops = true) (ho : only_push_pop ops = true)
    (hne : (run sqrt (s0.reset c) ops).empty = false) :
    (run sqrt (s0.reset c) ops).unread_size + pop_count ops
      = accepted_count sqrt (s0.reset c) ops := by
  have hr0 := reset_ringOk s0 c hc hc32
  have hk0 := reset_cursorOk s0 c hc
  have hr := run_ringOk sqrt c _ ops hr0
  have hcu := run_cursorOk sqrt c _ ops hr0 hk0 hp
  have hacc := run_held sqrt c _ ops hr0 hk0 hp ho
  have h0 : held c (s0.reset c) = 0 := by simp [held, reset]
  rw [unread_size_eq_held c _ hr hcu hne]
  omega

/-! ### Concrete start states -/

theorem reset_default_one (a b : α) :
    reset (default_ctor a b) 1 = ⟨a, b, [0], 0, 0, 0, 0, 0, false, true⟩ := by
  unfold reset default_ctor
  simp only [List.length_replicate, resize_replicate]
  simp

theorem reset_default_two (a b : α) :
    reset (default_ctor a b) 2 = ⟨a, b, [0, 0], 0, 0, 0, 0, 0, false, true⟩ := by
  unfold reset default_ctor
  simp only [List.length_replicate, resize_replicate]
  simp [List.replicate]

/-! ### Affine images and signs -/

theorem sum_map_affine (l : List α) (a b : α) :
    (l.map (fun x => a * x + b)).sum = a * l.sum + (l.length : α) * b := by
  induction l with
  | nil => simp
  | cons x xs ih =>
    simp only [List.map_cons, List.sum_cons, List.length_cons, Nat.cast_succ, ih]
    ring

theorem amean_map_affine [CharZero α] (l : List α) (a b : α) (hl : l ≠ []) :
    amean (l.map (fun x => a * x + b)) = a * amean l + b := by
  have hne : (l.length : α) ≠ 0 := Nat.cast_ne_zero.mpr (by simpa using hl)
  unfold amean
  rw [sum_map_affine, List.length_map]
  field_simp
  ring

theorem sqdev_map_affine (l : List α) (a b m : α) :
    sqdev (l.map (fun x => a * x + b)) (a * m + b) = a ^ 2 * sqdev l m := by
  induction l with
  | nil => simp [sqdev_nil]
  | cons x xs ih =>
    simp only [List.map_cons, sqdev_cons, ih]
    ring

theorem sqdev_nonneg_real (l : List ℝ) (m : ℝ) : 0 ≤ sqdev l m := by
  induction l with
  | nil => simp [sqdev_nil]
  | cons x xs ih =>
    rw [sqdev_cons]
    exact add_nonneg (sq_nonneg _) ih

theorem set_signal_fields (s : Normalizer α) (sig : List α) (h32 : sig.length < 4294967296) :
    (s.set_signal sig).n_ = sig.length ∧ (s.set_signal sig).signal_ = sig ∧
    (s.set_signal sig).mean_ = amean sig ∧
    (s.set_signal sig).varsum_ = sqdev sig (amean sig) ∧
    (s.set_signal sig).tgt_mean_ = s.tgt_mean_ ∧ (s.set_signal sig).tgt_stdv_ = s.tgt_stdv_ := by
  have hmod : sig.length % 4294967296 = sig.length := Nat.mod_eq_of_lt h32
  refine ⟨hmod, rfl, ?_, ?_, rfl, rfl⟩
  · simp only [set_signal, hmod, foldl_add_sum, zero_add, amean]
  · simp only [set_signal, hmod, foldl_sqdev, foldl_add_sum, zero_add, amean]

/-! ### The flag predicate -/

theorem flagsOk_of_ring (c : Nat) (s : Normalizer α) (h : RingOk c s) (hk : CursorOk c s) :
    FlagsOk s := by
  obtain ⟨hlen, hc, hc32, hn, hwr, hgrow⟩ := h
  obtain ⟨k1, k2, k3, k4, k5, k6⟩ := hk
  exact ⟨k4, k3, by omega, by omega, by omega⟩

theorem push_flagsOk (s : Normalizer α) (x : α) (h : FlagsOk s) : FlagsOk (s.push x).2 := by
  obtain ⟨f1, f2, f3, f4, f5⟩ := h
  cases hf : s.is_full_ with
  | true => rw [push_of_full s x hf]; exact ⟨f1, f2, f3, f4, f5⟩
  | false =>
    have hpos : 0 < s.signal_.length := by omega
    have hlt : ((s.wr_ + 1) % 4294967296) % s.signal_.length < s.signal_.length :=
      Nat.mod_lt _ hpos
    by_cases hcap : s.n_ = s.signal_.length
    · rw [push_roll s x hf hcap]
      refine ⟨by simp, ?_, ?_, ?_, ?_⟩
      · simp only [Bool.false_eq_true, false_or, decide_eq_true_eq]
        exact eq_comm
      · simp only [List.length_set]; exact f3
      · simp only [List.length_set]; exact hlt
      · simp only [List.length_set]; exact f5
    · rw [push_grow s x hf hcap]
      refine ⟨by simp, ?_, ?_, ?_, ?_⟩
      · simp only [Bool.false_eq_true, false_or, decide_eq_true_eq]
        exact eq_comm
      · simp only [List.length_set]; exact f3
      · simp only [List.length_set]; exact hlt
      · simp only [List.length_set]
        have := Nat.mod_le (s.n_ + 1) 4294967296
        omega

theorem pop_flagsOk (sqrt : α → α) (s : Normalizer α) (h : FlagsOk s) :
    FlagsOk (s.pop sqrt).2 := by
  obtain ⟨f1, f2, f3, f4, f5⟩ := h
  have hpos : 0 < s.signal_.length := by omega
  have hlt : ((s.rd_ + 1) % 4294967296) % s.signal_.length < s.signal_.length :=
    Nat.mod_lt _ hpos
  simp only [pop]
  exact ⟨by simp, by simp, hlt, f4, f5⟩

/-! ### Occupancy and the two flags -/

theorem held_flags (c : Nat) (s : Normalizer α) (h : RingOk c s) (hk : CursorOk c s) :
    held c s ≤ c ∧ (s.is_empty_ = true ↔ held c s = 0) ∧ (s.is_full_ = true ↔ held c s = c) := by
  obtain ⟨hlen, hc, hc32, hn, hwr, hgrow⟩ := h
  obtain ⟨k1, k2, k3, k4, k5, k6⟩ := hk
  unfold held
  cases he : s.is_empty_ with
  | true =>
    have hnf : s.is_full_ = false := by
      cases hf : s.is_full_ with
      | true => exact absurd ⟨he, hf⟩ k4
      | false => rfl
    simp only [if_true, true_iff]
    refine ⟨Nat.zero_le _, trivial, ?_⟩
    rw [hnf]
    simp only [Bool.false_eq_true, false_iff]
    omega
  | false =>
    rw [he] at k3
    simp only [Bool.false_eq_true, false_or, if_false] at k3 ⊢
    cases hf : s.is_full_ with
    | true =>
      have hrw : s.rd_ = s.wr_ := k3.mpr hf
      rw [if_neg (by omega)]
      simp only [true_iff, false_iff]
      omega
    | false =>
      have hrw : s.rd_ ≠ s.wr_ := fun e => by
        have := k3.mp e; rw [hf] at this; exact Bool.false_ne_true this
      simp only [Bool.false_eq_true, false_iff]
      split_ifs <;> omega

/-! ### Slots of the ring under `push` and `pop` -/

theorem take_set_le {β : Type} (l : List β) (i m : Nat) (x : β) (h : m ≤ i) :
    (l.set i x).take m = l.take m := by
  rw [List.set_take]
  apply List.set_eq_of_length_le
  rw [List.length_take]
  omega

theorem drop_set_take_succ {β : Type} (l : List β) (a i : Nat) (x : β) (ha : a ≤ i)
    (hi : i < l.length) :
    ((l.set i x).drop a).take (i - a + 1) = (l.drop a).take (i - a) ++ [x] := by
  rw [List.drop_set, if_neg (by omega)]
  exact take_succ_set (l.drop a) (i - a) x (by rw [List.length_drop]; omega)

theorem drop_set_last {β : Type} (l : List β) (a i : Nat) (x : β) (ha : a ≤ i)
    (hi : i + 1 = l.length) :
    (l.set i x).drop a = (l.drop a).take (i - a) ++ [x] := by
  rw [← drop_set_take_succ l a i x ha (by omega)]
  symm
  apply List.take_of_length_le
  rw [List.length_drop, List.length_set]
  omega

theorem recent_length (c : Nat) (s : Normalizer α) (h : RingOk c s) :
    (recent s).length = s.n_ := by
  obtain ⟨hlen, hc, hc32, hn, hwr, hgrow⟩ := h
  unfold recent
  split
  · rw [List.length_take]; omega
  · rw [List.length_append, List.length_drop, List.length_take]; omega

/-- An accepted push appends its sample to the window, dropping the oldest
sample once the window is saturated. -/
theorem push_recent (c : Nat) (s : Normalizer α) (x : α) (h : RingOk c s)
    (hf : s.is_full_ = false) :
    (s.n_ < c → (s.push x).2.n_ = s.n_ + 1 ∧ recent (s.push x).2 = recent s ++ [x]) ∧
    (s.n_ = c → (s.push x).2.n_ = s.n_ ∧ recent (s.push x).2 = (recent s).tail ++ [x]) := by
  obtain ⟨hlen, hc, hc32, hn, hwr, hgrow⟩ := h
  have hw1 : (s.wr_ + 1) % 4294967296 = s.wr_ + 1 := Nat.mod_eq_of_lt (by omega)
  constructor
  · intro hnc
    have hcap : s.n_ ≠ s.signal_.length := by omega
    have hwn : s.wr_ = s.n_ := hgrow hnc
    have hn1 : (s.n_ + 1) % 4294967296 = s.n_ + 1 := Nat.mod_eq_of_lt (by omega)
    rw [push_grow s x hf hcap]
    refine ⟨hn1, ?_⟩
    simp only [recent, hn1, hw1, hlen, List.length_set]
    rw [if_pos hnc, hwn]
    by_cases hlast : s.n_ + 1 < c
    · rw [if_pos hlast]
      exact take_succ_set s.signal_ s.n_ x (by omega)
    · have hnc2 : s.n_ + 1 = c := by omega
      rw [if_neg hlast, hnc2, Nat.mod_self]
      simp only [List.drop_zero, List.take_zero, List.append_nil]
      have := drop_set_last s.signal_ 0 s.n_ x (Nat.zero_le _) (by omega)
      simpa using this
  · intro hnc
    have hcap : s.n_ = s.signal_.length := by omega
    rw [push_roll s x hf hcap]
    refine ⟨rfl, ?_⟩
    simp only [recent, hw1, hlen, List.length_set]
    rw [if_neg (by omega), if_neg (by omega)]
    have hwl : s.wr_ < s.signal_.length := by omega
    have hd : s.signal_.drop s.wr_ = s.signal_[s.wr_] :: s.signal_.drop (s.wr_ + 1) :=
      List.drop_eq_getElem_cons hwl
    rw [hd, List.cons_append, List.tail_cons]
    by_cases hlast : s.wr_ + 1 < c
    · rw [Nat.mod_eq_of_lt hlast,
        List.drop_set_of_lt x s.signal_ (show s.wr_ < s.wr_ + 1 by omega),
        take_succ_set s.signal_ s.wr_ x hwl, List.append_assoc]
    · have hwc : s.wr_ + 1 = c := by omega
      rw [hwc, Nat.mod_self]
      have hnil : s.signal_.drop c = [] := by
        apply List.drop_of_length_le; omega
      simp only [List.drop_zero, List.take_zero, List.append_nil, hnil, List.nil_append]
      have := drop_set_last s.signal_ 0 s.wr_ x (Nat.zero_le _) (by omega)
      simpa using this

theorem skip_unread_frame (s : Normalizer α) (k : Nat) :
    (s.skip_unread k).2.wr_ = s.wr_ ∧ (s.skip_unread k).2.n_ = s.n_ ∧
    (s.skip_unread k).2.mean_ = s.mean_ ∧ (s.skip_unread k).2.varsum_ = s.varsum_ ∧
    (s.skip_unread k).2.signal_ = s.signal_ ∧
    (s.skip_unread k).2.tgt_mean_ = s.tgt_mean_ ∧
    (s.skip_unread k).2.tgt_stdv_ = s.tgt_stdv_ := by
  unfold skip_unread
  split
  · exact ⟨rfl, rfl, rfl, rfl, rfl, rfl, rfl⟩
  · exact ⟨rfl, rfl, rfl, rfl, rfl, rfl, rfl⟩

/-- The window holds the most recent accepted samples, along every call sequence. -/
theorem run_recent (sqrt : α → α) (c : Nat) (s : Normalizer α) (ops : List (Op α))
    (hist : List α) (h : RingOk c s)
    (hh : recent s = hist.drop (hist.length - s.n_)) (hn : s.n_ ≤ hist.length) :
    recent (run sqrt s ops)
      = (hist ++ accepted_samples sqrt s ops).drop
          ((hist ++ accepted_samples sqrt s ops).length - (run sqrt s ops).n_) ∧
    (run sqrt s ops).n_ ≤ (hist ++ accepted_samples sqrt s ops).length := by
  induction ops generalizing s hist with
  | nil => simpa [run, accepted_samples] using ⟨hh, hn⟩
  | cons op ops ih =>
    have hr2 := step_ringOk sqrt c s op h
    cases op with
    | push x =>
      simp only [run, accepted_samples]
      cases hf : s.is_full_ with
      | true =>
        have hs : step sqrt s (Op.push x) = s := by simp [step, push_of_full s x hf]
        rw [hs, push_of_full s x hf]
        simpa using ih s hist h hh hn
      | false =>
        rw [push_fst_of_not_full s x hf]
        simp only [if_true]
        obtain ⟨g1, g2⟩ := push_recent c s x h hf
        have hnle : s.n_ ≤ c := h.2.2.2.1
        have hcpos : 0 < c := h.2.1
        have key : recent (step sqrt s (Op.push x))
            = (hist ++ [x]).drop ((hist ++ [x]).length - (step sqrt s (Op.push x)).n_) ∧
            (step sqrt s (Op.push x)).n_ ≤ (hist ++ [x]).length := by
          simp only [step, List.length_append, List.length_singleton]
          by_cases hnc : s.n_ < c
          · obtain ⟨a1, a2⟩ := g1 hnc
            rw [a1, a2, hh]
            refine ⟨?_, by omega⟩
            have e : (hist ++ [x]).drop (hist.length - s.n_)
                = hist.drop (hist.length - s.n_) ++ [x] :=
              List.drop_append_of_le_length (by omega)
            rw [show hist.length + 1 - (s.n_ + 1) = hist.length - s.n_ by omega, e]
          · obtain ⟨a1, a2⟩ := g2 (by omega)
            rw [a1, a2, hh]
            refine ⟨?_, by omega⟩
            have e : (hist ++ [x]).drop (hist.length - s.n_ + 1)
                = hist.drop (hist.length - s.n_ + 1) ++ [x] :=
              List.drop_append_of_le_length (by omega)
            rw [List.tail_drop, show hist.length + 1 - s.n_ = hist.length - s.n_ + 1 by omega, e]
        have := ih (step sqrt s (Op.push x)) (hist ++ [x]) hr2 key.1 key.2
        simpa [List.append_assoc] using this
    | pop =>
      simp only [run, accepted_samples]
      exact ih (step sqrt s Op.pop) hist hr2 hh hn
    | skip_unread k =>
      simp only [run, accepted_samples]
      obtain ⟨e1, e2, _, _, e5, _, _⟩ := skip_unread_frame s k
      have hrec : recent (step sqrt s (Op.skip_unread k)) = recent s := by
        simp only [recent, step, e1, e2, e5]
      exact ih (step sqrt s (Op.skip_unread k)) hist hr2
        (by rw [hrec]; simp only [step, e2]; exact hh) (by simp only [step, e2]; exact hn)

/-- In a consistent ring `unread_size` never exceeds the count `n_`. -/
theorem unread_size_le_n (c : Nat) (s : Normalizer α) (h : RingOk c s) (hk : CursorOk c s) :
    s.unread_size ≤ s.n_ := by
  rw [unread_size_eq c s h hk]
  obtain ⟨hlen, hc, hc32, hn, hwr, hgrow⟩ := h
  obtain ⟨k1, k2, k3, k4, k5, k6⟩ := hk
  split_ifs <;> omega

/-- After `skip_unread k` the unread samples are the last `k` of the window. -/
theorem skip_unread_slots (c : Nat) (s : Normalizer α) (k : Nat) (h : RingOk c s)
    (hk : CursorOk c s) (hlt : k < s.unread_size) :
    unread_slots (s.skip_unread k).2 = (recent s).drop (s.n_ - k) := by
  have hnew := skip_unread_new_rd c s k h hk hlt
  have hle := unread_size_le_n c s h hk
  have hu := unread_size_eq c s h hk
  have hrl := recent_length c s h
  rw [skip_unread_of_lt s k hlt]
  simp only [hnew, unread_slots, decide_eq_true_eq]
  rw [hu] at hlt
  obtain ⟨hlen, hc, hc32, hn, hwr, hgrow⟩ := h
  obtain ⟨k1, k2, k3, k4, k5, k6⟩ := hk
  by_cases hk0 : k = 0
  · subst hk0
    rw [if_pos (Nat.zero_le _), if_neg (by omega), if_pos rfl]
    symm
    apply List.drop_of_length_le
    omega
  · by_cases hkw : k ≤ s.wr_
    · rw [if_pos hkw, if_pos (show s.wr_ - k < s.wr_ by omega)]
      rw [show s.wr_ - (s.wr_ - k) = k by omega]
      unfold recent
      by_cases hnc : s.n_ < c
      · have hwn : s.wr_ = s.n_ := hgrow hnc
        rw [hlen, if_pos hnc, List.drop_take, hwn, show s.n_ - (s.n_ - k) = k by omega]
      · have hnc2 : s.n_ = c := by omega
        rw [hlen, if_neg hnc, hnc2]
        have hdl : (s.signal_.drop s.wr_).length = c - s.wr_ := by
          rw [List.length_drop]; omega
        rw [show c - k = (s.signal_.drop s.wr_).length + (s.wr_ - k) by omega,
          List.drop_append, List.drop_take, show s.wr_ - (s.wr_ - k) = k by omega]
    · have hrw : ¬ s.rd_ < s.wr_ := by
        intro hlt2
        rw [if_pos hlt2] at hlt
        omega
      rw [if_neg hrw] at hlt
      have hnc2 : s.n_ = c := by
        by_contra hcon
        have hlt3 : s.n_ < c := by omega
        have := hgrow hlt3
        have := k2 hlt3
        omega
      rw [if_neg hkw, if_neg (show ¬ (s.n_ + s.wr_ - k < s.wr_) by omega), if_neg hk0]
      unfold recent
      rw [hlen, if_neg (by omega), hnc2,
        List.drop_append_of_le_length (by rw [List.length_drop]; omega), List.drop_drop,
        show s.wr_ + (c - k) = c + s.wr_ - k by omega]

/-! ### Sorting chains by descending total length -/

theorem insert_by_len_perm (c : ReadAln) (l : List ReadAln) :
    (SeedTracker.insert_by_len c l).Perm (c :: l) := by
  induction l with
  | nil => exact List.Perm.refl _
  | cons d ds ih =>
    simp only [SeedTracker.insert_by_len]
    split
    · exact List.Perm.refl _
    · exact (List.Perm.cons d ih).trans (List.Perm.swap c d ds)

theorem sort_by_len_perm (l : List ReadAln) : (SeedTracker.sort_by_len l).Perm l := by
  induction l with
  | nil => exact List.Perm.refl _
  | cons c cs ih =>
    simp only [SeedTracker.sort_by_len]
    exact (insert_by_len_perm c _).trans (List.Perm.cons c ih)

theorem insert_by_len_pairwise (c : ReadAln) (l : List ReadAln)
    (h : l.Pairwise (fun a b => b.total_len_ ≤ a.total_len_)) :
    (SeedTracker.insert_by_len c l).Pairwise (fun a b => b.total_len_ ≤ a.total_len_) := by
  induction l with
  | nil => simp [SeedTracker.insert_by_len]
  | cons d ds ih =>
    rw [List.pairwise_cons] at h
    simp only [SeedTracker.insert_by_len]
    split
    · rename_i hle
      rw [List.pairwise_cons]
      refine ⟨?_, List.pairwise_cons.mpr h⟩
      intro x hx
      rcases List.mem_cons.mp hx with rfl | hx
      · exact hle
      · exact le_trans (h.1 x hx) hle
    · rename_i hle
      rw [List.pairwise_cons]
      refine ⟨?_, ih h.2⟩
      intro x hx
      rcases List.mem_cons.mp ((insert_by_len_perm c ds).mem_iff.mp hx) with rfl | hx
      · omega
      · exact h.1 x hx

theorem sort_by_len_pairwise (l : List ReadAln) :
    (SeedTracker.sort_by_len l).Pairwise (fun a b => b.total_len_ ≤ a.total_len_) := by
  induction l with
  | nil => simp [SeedTracker.sort_by_len]
  | cons c cs ih =>
    simp only [SeedTracker.sort_by_len]
    exact insert_by_len_pairwise c _ ih

/-! ### What `skip_unread` discards from a non-empty buffer -/

/-- After `skip_unread k` with `k` below `unread_size`, cursors and flags tell
that `k` samples are unread. -/
theorem skip_unread_held (c : Nat) (s : Normalizer α) (k : Nat) (h : RingOk c s)
    (hk : CursorOk c s) (hlt : k < s.unread_size) :
    held c (s.skip_unread k).2 = k := by
  have hnew := skip_unread_new_rd c s k h hk hlt
  have hu := unread_size_eq c s h hk
  rw [skip_unread_of_lt s k hlt]
  simp only [hnew, held, decide_eq_true_eq]
  rw [hu] at hlt
  obtain ⟨hlen, hc, hc32, hn, hwr, hgrow⟩ := h
  obtain ⟨k1, k2, k3, k4, k5, k6⟩ := hk
  by_cases hk0 : k = 0
  · rw [if_pos hk0, hk0]
  · rw [if_neg hk0]
    by_cases hkw : k ≤ s.wr_
    · rw [if_pos hkw, if_pos (show s.wr_ - k < s.wr_ by omega)]
      omega
    · have hrw : ¬ s.rd_ < s.wr_ := by
        intro hlt2
        rw [if_pos hlt2] at hlt
        omega
      rw [if_neg hrw] at hlt
      have hnc2 : s.n_ = c := by
        by_contra hcon
        have hlt3 : s.n_ < c := by omega
        have := hgrow hlt3
        have := k2 hlt3
        omega
      rw [if_neg hkw, if_neg (show ¬ (s.n_ + s.wr_ - k < s.wr_) by omega)]
      omega

/-- On a non-empty buffer reached from `reset c`, `skip_unread k` with `k` below
`unread_size` returns the number of unread samples it discards: the unread
count before the call minus the `k` samples unread afterwards. -/
theorem skip_unread_discards_nonempty (sqrt : α → α) (s0 : Normalizer α) (c : Nat)
    (ops : List (Op α)) (k : Nat) (hc : 1 ≤ c) (hc32 : c < 4294967296)
    (hp : pops_nonempty sqrt (s0.reset c) ops = true)
    (hne : (run sqrt (s0.reset c) ops).empty = false)
    (hk : k < (run sqrt (s0.reset c) ops).unread_size) :
    held c ((run sqrt (s0.reset c) ops).skip_unread k).2 = k ∧
    ((run sqrt (s0.reset c) ops).skip_unread k).1
      = held c (run sqrt (s0.reset c) ops)
        - held c ((run sqrt (s0.reset c) ops).skip_unread k).2 := by
  have hr := run_ringOk sqrt c _ ops (reset_ringOk s0 c hc hc32)
  have hcu := run_cursorOk sqrt c _ ops (reset_ringOk s0 c hc hc32) (reset_cursorOk s0 c hc) hp
  have h1 := skip_unread_held c _ k hr hcu hk
  have h2 := skip_unread_fst c _ k hr hcu hk
  have h3 := unread_size_eq_held c _ hr hcu hne
  refine ⟨h1, ?_⟩
  rw [h2, h1, h3]

end Basic

/-! ## Claims -/

section Claims

variable {α : Type} [Field α] [DecidableEq α]

/-- C2: when `full()` is true, `push` returns false and leaves the whole state
(buffer, `n_`, cursors, moments, flags, targets) as it was; when `full()` is
false, `push` returns true. -/
theorem push_full_rejected (s : Normalizer α) (x : α) :
    (s.full = true → s.push x = (false, s)) ∧ (s.full = false → (s.push x).1 = true) := by
  constructor
  · intro h
    simp only [full] at h
    simp [push, h]
  · intro h
    simp only [full] at h
    unfold push
    rw [if_neg (by simp [h])]
    dsimp only
    split <;> rfl

/-- C6: `skip_unread nkeep` with `nkeep` at least `unread_size()` returns 0 and
leaves the whole state unchanged. -/
theorem skip_unread_noop (s : Normalizer α) (nkeep : Nat) (h : s.unread_size ≤ nkeep) :
    s.skip_unread nkeep = (0, s) := by
  unfold skip_unread
  simp [h]

/-- C7: after `set_signal sig` on a non-empty sequence (whose length fits the
`u32` counter) and any sequence of calls, `mean_` is the arithmetic mean of all
slots of the buffer and `varsum_` is the sum of their squared deviations from
that mean; in particular this holds after every accepted `push`, so the rolling
update agrees with recomputation from the buffer contents. -/
theorem rolling_update_exact [CharZero α] (sqrt : α → α) (s0 : Normalizer α)
    (sig : List α) (ops : List (Op α)) (h : sig ≠ []) (h32 : sig.length < 4294967296) :
    (run sqrt (s0.set_signal sig) ops).mean_
        = amean (run sqrt (s0.set_signal sig) ops).signal_ ∧
    (run sqrt (s0.set_signal sig) ops).varsum_
        = sqdev (run sqrt (s0.set_signal sig) ops).signal_
            (amean (run sqrt (s0.set_signal sig) ops).signal_) := by
  have hr := run_ringOk sqrt sig.length _ ops (set_signal_ringOk s0 sig h h32)
  have hs := run_statsOk sqrt sig.length _ ops (set_signal_ringOk s0 sig h h32)
    (set_signal_statsOk s0 sig h32)
  have hn : (s0.set_signal sig).n_ = (s0.set_signal sig).signal_.length := by
    simp [set_signal, Nat.mod_eq_of_lt h32]
  have hsat := run_saturated sqrt _ ops hn
  have hw : window (run sqrt (s0.set_signal sig) ops)
      = (run sqrt (s0.set_signal sig) ops).signal_ := by
    simp [window, hsat]
  have := statsOk_closed _ hs
  rwa [hw] at this

/-- C8: after `reset c` (`1 ≤ c`) and a call sequence all of whose pushes are
accepted, with at most `c` pushes of samples `x_1 .. x_k` and pops interleaved
anywhere, `n_` is `k`, `mean_` is the arithmetic mean of the pushed samples and
`varsum_` is the sum of their squared deviations from it; for `k ≥ 1` these are
the values `set_signal` computes on the same samples. -/
theorem welford_matches_batch [CharZero α] (sqrt : α → α) (s0 : Normalizer α) (c : Nat)
    (ops : List (Op α)) (hc : 1 ≤ c) (hc32 : c < 4294967296)
    (hacc : pushes_accepted sqrt (s0.reset c) ops = true)
    (hk : (pushed ops).length ≤ c) :
    (run sqrt (s0.reset c) ops).n_ = (pushed ops).length ∧
    (run sqrt (s0.reset c) ops).mean_ = amean (pushed ops) ∧
    (run sqrt (s0.reset c) ops).varsum_ = sqdev (pushed ops) (amean (pushed ops)) ∧
    (pushed ops ≠ [] →
      (run sqrt (s0.reset c) ops).mean_ = (s0.set_signal (pushed ops)).mean_ ∧
      (run sqrt (s0.reset c) ops).varsum_ = (s0.set_signal (pushed ops)).varsum_) := by
  have hr := reset_ringOk s0 c hc hc32
  have hn0 : (s0.reset c).n_ = 0 := rfl
  have hw0 : window (s0.reset c) = [] := by simp [window, reset]
  obtain ⟨g1, g2, g3⟩ := run_growth sqrt c (s0.reset c) ops hr (reset_statsOk s0 c) hacc
    (by rw [hn0]; omega)
  rw [hn0, Nat.zero_add] at g1
  rw [hw0, List.nil_append] at g2
  obtain ⟨m1, m2⟩ := statsOk_closed _ g3
  rw [g2] at m1 m2
  refine ⟨g1, m1, m2, ?_⟩
  intro _
  obtain ⟨b1, b2⟩ := statsOk_closed _ (set_signal_statsOk s0 (pushed ops) (by omega))
  have hwb : window (s0.set_signal (pushed ops)) = pushed ops := by
    simp [window, set_signal, Nat.mod_eq_of_lt (show (pushed ops).length < 4294967296 by omega)]
  rw [hwb] at b1 b2
  rw [m1, m2, b1, b2]
  exact ⟨rfl, rfl⟩

/-- C3 (failing input): after `reset 2`, the accepted pushes of `1` and `3` and two
pops, each on a non-empty buffer, the buffer is empty, two pushes were accepted
and two pops performed, yet `unread_size()` is 2 instead of 0. -/
theorem unread_size_miscounts_empty :
    pops_nonempty id (reset (default_ctor (0 : ℚ) 1) 2)
      [Op.push 1, Op.push 3, Op.pop, Op.pop] = true ∧
    accepted_count id (reset (default_ctor (0 : ℚ) 1) 2)
      [Op.push 1, Op.push 3, Op.pop, Op.pop] = 2 ∧
    pop_count [Op.push (1 : ℚ), Op.push 3, Op.pop, Op.pop] = 2 ∧
    (run id (reset (default_ctor (0 : ℚ) 1) 2)
      [Op.push 1, Op.push 3, Op.pop, Op.pop]).empty = true ∧
    (run id (reset (default_ctor (0 : ℚ) 1) 2)
      [Op.push 1, Op.push 3, Op.pop, Op.pop]).unread_size = 2 ∧
    (run id (reset (default_ctor (0 : ℚ) 1) 2)
        [Op.push 1, Op.push 3, Op.pop, Op.pop]).unread_size
        + pop_count [Op.push (1 : ℚ), Op.push 3, Op.pop, Op.pop]
      ≠ accepted_count id (reset (default_ctor (0 : ℚ) 1) 2)
          [Op.push 1, Op.push 3, Op.pop, Op.pop] := by
  rw [reset_default_two]
  decide

/-- C4 (failing input): after `reset 2` and one accepted `push`, `unread_size()`
is 1, so `0 < unread_size()`; after `skip_unread 0` the buffer is flagged empty
but `unread_size()` is still 1, not 0. -/
theorem skip_unread_zero_leaves_count :
    (run id (reset (default_ctor (0 : ℚ) 1) 2) [Op.push 5]).unread_size = 1 ∧
    ((run id (reset (default_ctor (0 : ℚ) 1) 2) [Op.push 5]).skip_unread 0).2.empty = true ∧
    ((run id (reset (default_ctor (0 : ℚ) 1) 2) [Op.push 5]).skip_unread 0).2.unread_size
      = 1 ∧
    ((run id (reset (default_ctor (0 : ℚ) 1) 2) [Op.push 5]).skip_unread 0).2.unread_size
      ≠ 0 := by
  rw [reset_default_two]
  decide

/-- C5 (failing input): after `reset 2`, the accepted pushes of `1` and `3` and two
pops, each on a non-empty buffer, both samples have been read and nothing is
unread, yet `unread_size()` is 2, so `1 < unread_size()`; `skip_unread 1` then
returns 1 although no sample is discarded, and moves `rd_` back to slot 1, so
that the sample `3`, already popped, is unread again. -/
theorem skip_unread_counts_on_drained_buffer :
    pops_nonempty id (reset (default_ctor (0 : ℚ) 1) 2)
      [Op.push 1, Op.push 3, Op.pop, Op.pop] = true ∧
    popped_raw id (reset (default_ctor (0 : ℚ) 1) 2)
      [Op.push 1, Op.push 3, Op.pop, Op.pop] = [1, 3] ∧
    (run id (reset (default_ctor (0 : ℚ) 1) 2)
      [Op.push 1, Op.push 3, Op.pop, Op.pop]).empty = true ∧
    unread_slots (run id (reset (default_ctor (0 : ℚ) 1) 2)
      [Op.push 1, Op.push 3, Op.pop, Op.pop]) = [] ∧
    (run id (reset (default_ctor (0 : ℚ) 1) 2)
      [Op.push 1, Op.push 3, Op.pop, Op.pop]).unread_size = 2 ∧
    ((run id (reset (default_ctor (0 : ℚ) 1) 2)
      [Op.push 1, Op.push 3, Op.pop, Op.pop]).skip_unread 1).1 = 1 ∧
    ((run id (reset (default_ctor (0 : ℚ) 1) 2)
      [Op.push 1, Op.push 3, Op.pop, Op.pop]).skip_unread 1).2.rd_ = 1 ∧
    ((run id (reset (default_ctor (0 : ℚ) 1) 2)
      [Op.push 1, Op.push 3, Op.pop, Op.pop]).skip_unread 1).2.empty = false ∧
    unread_slots ((run id (reset (default_ctor (0 : ℚ) 1) 2)
      [Op.push 1, Op.push 3, Op.pop, Op.pop]).skip_unread 1).2 = [3] ∧
    ((run id (reset (default_ctor (0 : ℚ) 1) 2)
        [Op.push 1, Op.push 3, Op.pop, Op.pop]).skip_unread 1).1
      ≠ (unread_slots (run id (reset (default_ctor (0 : ℚ) 1) 2)
          [Op.push 1, Op.push 3, Op.pop, Op.pop])).length - 1 := by
  rw [reset_default_two]
  refine ⟨by decide, ?_, by decide, ?_, by decide, by decide, by decide, by decide, ?_, ?_⟩
  · simp [popped_raw, step, push, pop]
  · simp [unread_slots, run, step, push, pop]
  · simp [unread_slots, run, step, push, pop, skip_unread, unread_size, sub32, add32]
  · simp [unread_slots, run, step, push, pop, skip_unread, unread_size, sub32, add32]

/-- In every state reached from `reset c` (`1 ≤ c`) by push, pop on a non-empty
buffer and skip_unread, and for every `k` below `unread_size()`, `skip_unread k`
returns the value of `unread_size()` before the call minus `k`. -/
theorem skip_unread_returns_discarded (sqrt : α → α) (s0 : Normalizer α) (c : Nat)
    (ops : List (Op α)) (k : Nat) (hc : 1 ≤ c) (hc32 : c < 4294967296)
    (hp : pops_nonempty sqrt (s0.reset c) ops = true)
    (hk : k < (run sqrt (s0.reset c) ops).unread_size) :
    ((run sqrt (s0.reset c) ops).skip_unread k).1
      = (run sqrt (s0.reset c) ops).unread_size - k := by
  have hr := run_ringOk sqrt c _ ops (reset_ringOk s0 c hc hc32)
  have hcu := run_cursorOk sqrt c _ ops (reset_ringOk s0 c hc hc32) (reset_cursorOk s0 c hc) hp
  exact skip_unread_fst c _ k hr hcu hk

/-- C9 (counterexample): after `reset 2`, `push 1`, `push 3` and one `pop`, the
buffer is not empty, the only unread sample is `3`, but `mean_` is `2` and
`varsum_` is `2`: the moments of both samples, not of the unread one. -/
theorem moments_not_of_unread_only :
    pops_nonempty id (reset (default_ctor (0 : ℚ) 1) 2) [Op.push 1, Op.push 3, Op.pop] = true ∧
    (run id (reset (default_ctor (0 : ℚ) 1) 2) [Op.push 1, Op.push 3, Op.pop]).empty = false ∧
    unread_slots (run id (reset (default_ctor (0 : ℚ) 1) 2) [Op.push 1, Op.push 3, Op.pop])
      = [3] ∧
    (run id (reset (default_ctor (0 : ℚ) 1) 2) [Op.push 1, Op.push 3, Op.pop]).mean_ = 2 ∧
    (run id (reset (default_ctor (0 : ℚ) 1) 2) [Op.push 1, Op.push 3, Op.pop]).varsum_ = 2 ∧
    amean (unread_slots
      (run id (reset (default_ctor (0 : ℚ) 1) 2) [Op.push 1, Op.push 3, Op.pop])) = 3 ∧
    sqdev (unread_slots
      (run id (reset (default_ctor (0 : ℚ) 1) 2) [Op.push 1, Op.push 3, Op.pop])) 3 = 0 ∧
    (run id (reset (default_ctor (0 : ℚ) 1) 2) [Op.push 1, Op.push 3, Op.pop]).mean_
      ≠ amean (unread_slots
          (run id (reset (default_ctor (0 : ℚ) 1) 2) [Op.push 1, Op.push 3, Op.pop])) := by
  rw [reset_default_two]
  refine ⟨by decide, by decide, by decide, ?_, ?_, ?_, ?_, ?_⟩
  · simp [run, step, push, pop]
    norm_num
  · simp [run, step, push, pop]
    norm_num
  · simp [run, step, push, pop, unread_slots, amean]
  · simp [run, step, push, pop, unread_slots, sqdev]
  · simp [run, step, push, pop, unread_slots, amean]
    norm_num

/-- C9 (amended): in every state reached from `reset c` (`1 ≤ c`) or from
`set_signal sig` (`sig` non-empty) by push, pop and skip_unread, `mean_` and
`varsum_` are the exact mean and sum of squared deviations of the samples in
the first `n_` slots of the buffer, read or unread. -/
theorem moments_of_window [CharZero α] (sqrt : α → α) (s0 start : Normalizer α) (c : Nat)
    (sig : List α) (ops : List (Op α))
    (hstart : (start = s0.reset c ∧ 1 ≤ c ∧ c < 4294967296) ∨
      (start = s0.set_signal sig ∧ sig ≠ [] ∧ sig.length < 4294967296)) :
    (run sqrt start ops).mean_ = amean (window (run sqrt start ops)) ∧
    (run sqrt start ops).varsum_
      = sqdev (window (run sqrt start ops)) (amean (window (run sqrt start ops))) := by
  rcases hstart with ⟨rfl, hc, hc32⟩ | ⟨rfl, h, h32⟩
  · exact statsOk_closed _
      (run_statsOk sqrt c _ ops (reset_ringOk s0 c hc hc32) (reset_statsOk s0 c))
  · exact statsOk_closed _
      (run_statsOk sqrt sig.length _ ops (set_signal_ringOk s0 sig h h32)
        (set_signal_statsOk s0 sig h32))

/-- C10 (counterexample): after `reset 1` and one accepted `push`, the buffer is
not empty and `n_` is 1, but `varsum_ / n_` is 0, so the second division of the
scale computation is a division by zero and the guarded `pop` yields no value. -/
theorem pop_divides_by_zero_after_one_push :
    pops_nonempty Real.sqrt (reset (default_ctor (0 : ℝ) 1) 1) [Op.push 5] = true ∧
    (run Real.sqrt (reset (default_ctor (0 : ℝ) 1) 1) [Op.push 5]).empty = false ∧
    (run Real.sqrt (reset (default_ctor (0 : ℝ) 1) 1) [Op.push 5]).n_ = 1 ∧
    (run Real.sqrt (reset (default_ctor (0 : ℝ) 1) 1) [Op.push 5]).varsum_ /
      ((run Real.sqrt (reset (default_ctor (0 : ℝ) 1) 1) [Op.push 5]).n_ : ℝ) = 0 ∧
    ((run Real.sqrt (reset (default_ctor (0 : ℝ) 1) 1) [Op.push 5]).pop Real.sqrt).1
      = none := by
  rw [reset_default_one]
  refine ⟨?_, ?_, ?_, ?_, ?_⟩ <;> simp [pops_nonempty, run, step, push, pop, at_, empty]

/-- C10 (amended): in every state reached from `reset c` (`1 ≤ c`) by push, pop
on a non-empty buffer and skip_unread in which `empty()` is false, `n_` is not
zero, so the first division is safe; the second divisor is non-zero, and the
guarded `pop` yields a value, exactly when `varsum_` is not zero. -/
theorem pop_defined_iff_varsum_ne_zero (s0 : Normalizer ℝ) (c : Nat) (ops : List (Op ℝ))
    (hc : 1 ≤ c) (hc32 : c < 4294967296)
    (hp : pops_nonempty Real.sqrt (s0.reset c) ops = true)
    (hne : (run Real.sqrt (s0.reset c) ops).empty = false) :
    (run Real.sqrt (s0.reset c) ops).n_ ≠ 0 ∧
    (Real.sqrt ((run Real.sqrt (s0.reset c) ops).varsum_ /
        ((run Real.sqrt (s0.reset c) ops).n_ : ℝ)) ≠ 0
      ↔ (run Real.sqrt (s0.reset c) ops).varsum_ ≠ 0) ∧
    ((((run Real.sqrt (s0.reset c) ops).pop Real.sqrt).1).isSome = true
      ↔ (run Real.sqrt (s0.reset c) ops).varsum_ ≠ 0) := by
  have hr := run_ringOk Real.sqrt c _ ops (reset_ringOk s0 c hc hc32)
  have hcu := run_cursorOk Real.sqrt c _ ops (reset_ringOk s0 c hc hc32)
    (reset_cursorOk s0 c hc) hp
  have hs := run_statsOk Real.sqrt c _ ops (reset_ringOk s0 c hc hc32) (reset_statsOk s0 c)
  generalize run Real.sqrt (s0.reset c) ops = s at hr hcu hs hne ⊢
  obtain ⟨k1, k2, k3, k4, k5, k6⟩ := hcu
  have hn0 : s.n_ ≠ 0 := by
    intro h0
    have := k6 h0
    simp only [empty] at hne
    rw [hne] at this
    exact absurd this Bool.false_ne_true
  have hnpos : (0 : ℝ) < (s.n_ : ℝ) := Nat.cast_pos.mpr (Nat.pos_of_ne_zero hn0)
  have hv : 0 ≤ s.varsum_ := by rw [hs.2]; exact sqdev_nonneg_real _ _
  have hiff : Real.sqrt (s.varsum_ / (s.n_ : ℝ)) ≠ 0 ↔ s.varsum_ ≠ 0 := by
    rw [Ne, Real.sqrt_eq_zero (div_nonneg hv hnpos.le), div_eq_zero_iff]
    constructor
    · intro h1 h2; exact h1 (Or.inl h2)
    · intro h1 h2
      rcases h2 with h2 | h2
      · exact h1 h2
      · exact hnpos.ne (h2.symm)
  refine ⟨hn0, hiff, ?_⟩
  rw [← hiff]
  simp only [pop, at_, if_neg hn0]
  by_cases hz : Real.sqrt (s.varsum_ / (s.n_ : ℝ)) = 0
  · simp [hz]
  · simp [hz]

/-- C1: after `set_target m sd` and `set_signal sig`, for a non-empty `sig` (whose
length fits the `u32` counter) of non-zero variance and `0 ≤ sd`, every `at i`
with `i < |sig|` yields a value, and the list of these values has arithmetic
mean exactly `m` and population standard deviation exactly `sd`. -/
theorem batch_normalized_moments (s0 : Normalizer ℝ) (sig : List ℝ) (m sd : ℝ)
    (h : sig ≠ []) (h32 : sig.length < 4294967296) (hvar : pop_variance sig ≠ 0)
    (hsd : 0 ≤ sd) :
    ∃ out : List ℝ, out.length = sig.length ∧
      (∀ i, i < sig.length →
        at_ Real.sqrt ((s0.set_target m sd).set_signal sig) i = out[i]?) ∧
      amean out = m ∧ Real.sqrt (pop_variance out) = sd := by
  obtain ⟨f1, f2, f3, f4, f5, f6⟩ := set_signal_fields (s0.set_target m sd) sig h32
  have f7 : (s0.set_target m sd).tgt_mean_ = m := rfl
  have f8 : (s0.set_target m sd).tgt_stdv_ = sd := rfl
  rw [f7] at f5
  rw [f8] at f6
  generalize (s0.set_target m sd).set_signal sig = st at f1 f2 f3 f4 f5 f6 ⊢
  have hpos : 0 < sig.length := List.length_pos.mpr h
  have hnpos : (0 : ℝ) < (sig.length : ℝ) := Nat.cast_pos.mpr hpos
  have hv0 : 0 ≤ pop_variance sig := div_nonneg (sqdev_nonneg_real _ _) hnpos.le
  have hvpos : 0 < pop_variance sig := lt_of_le_of_ne hv0 (Ne.symm hvar)
  have hrpos : 0 < Real.sqrt (pop_variance sig) := Real.sqrt_pos.mpr hvpos
  have hr2 : Real.sqrt (pop_variance sig) ^ 2 = pop_variance sig := Real.sq_sqrt hv0
  have hscale : st.varsum_ / (st.n_ : ℝ) = pop_variance sig := by
    rw [f1, f4]; rfl
  have hv2 : sqdev sig (amean sig) / (sig.length : ℝ) = Real.sqrt (pop_variance sig) ^ 2 :=
    hr2.symm
  generalize hr : Real.sqrt (pop_variance sig) = r at hrpos hv2
  have hmean := amean_map_affine sig (sd / r) (m - sd / r * amean sig) h
  refine ⟨sig.map (fun x => sd / r * x + (m - sd / r * amean sig)), by simp, ?_, ?_, ?_⟩
  · intro i hi
    have hn0 : st.n_ ≠ 0 := by rw [f1]; omega
    simp only [at_, if_neg hn0, hscale, hr, if_neg hrpos.ne.symm, f2, f3, f5, f6]
    rw [List.getElem?_map, List.getElem?_eq_getElem hi, List.getD_eq_getElem _ _ hi]
    rfl
  · rw [hmean]
    ring
  · have hpv : pop_variance (sig.map (fun x => sd / r * x + (m - sd / r * amean sig)))
        = sd ^ 2 := by
      unfold pop_variance
      rw [hmean, sqdev_map_affine, List.length_map, mul_div_assoc, hv2, div_pow]
      exact div_mul_cancel₀ _ (pow_ne_zero 2 hrpos.ne.symm)
    rw [hpv]
    exact Real.sqrt_sq hsd

/-- C11: for every state with a non-empty buffer and every `b`, after `reset b`
the count and both cursors are 0, `mean_` and `varsum_` are 0, `empty()` is
true and `full()` is false; the capacity is `b` if `b ≠ 0` and `b` differs from
the previous capacity and is unchanged otherwise; slot 0 holds 0; the two
targets are unchanged. -/
theorem reset_clears (s : Normalizer α) (b : Nat) (h : s.signal_ ≠ []) :
    (s.reset b).n_ = 0 ∧ (s.reset b).rd_ = 0 ∧ (s.reset b).wr_ = 0 ∧
    (s.reset b).mean_ = 0 ∧ (s.reset b).varsum_ = 0 ∧
    (s.reset b).empty = true ∧ (s.reset b).full = false ∧
    (s.reset b).signal_.length
      = (if b ≠ 0 ∧ b ≠ s.signal_.length then b else s.signal_.length) ∧
    (s.reset b).signal_.head? = some 0 ∧
    (s.reset b).tgt_mean_ = s.tgt_mean_ ∧ (s.reset b).tgt_stdv_ = s.tgt_stdv_ := by
  refine ⟨rfl, rfl, rfl, rfl, rfl, rfl, rfl, ?_, ?_, rfl, rfl⟩
  · unfold reset
    by_cases hb : b ≠ 0 ∧ b ≠ s.signal_.length
    · simp only [if_pos hb, List.length_set, resize_length]
    · simp only [if_neg hb, List.length_set]
  · unfold reset
    by_cases hb : b ≠ 0 ∧ b ≠ s.signal_.length
    · simp only [if_pos hb]
      have hl : (resize s.signal_ b).length = b := resize_length _ _
      cases hr : resize s.signal_ b with
      | nil => rw [hr] at hl; simp at hl; exact absurd hl.symm hb.1
      | cons y ys => simp
    · simp only [if_neg hb]
      cases hs : s.signal_ with
      | nil => exact absurd hs h
      | cons y ys => simp

/-- C12: in every state with capacity at least 1, after one `pop` the next
`push x` returns true, whatever the sample `x`. -/
theorem pop_releases_backpressure (sqrt : α → α) (s : Normalizer α) (x : α)
    (_hcap : 1 ≤ s.signal_.length) : ((s.pop sqrt).2.push x).1 = true := by
  have hf : (s.pop sqrt).2.is_full_ = false := rfl
  cases hfull : (s.pop sqrt).2.is_full_ with
  | true => rw [hf] at hfull; exact absurd hfull Bool.false_ne_true
  | false =>
    by_cases hcap : (s.pop sqrt).2.n_ = (s.pop sqrt).2.signal_.length
    · rw [push_roll _ x hfull hcap]
    · rw [push_grow _ x hfull hcap]

/-- C15 (counterexample): after `reset 2` the predicate holds; after a `pop` on
that empty buffer it still holds (`rd_ = 1`, `wr_ = 0`, both flags false); the
following `skip_unread 1` sets `rd_` to `4294967295`, outside the buffer of
capacity 2, so the predicate no longer holds. -/
theorem skip_unread_breaks_flags_after_empty_pop :
    FlagsOk (reset (default_ctor (0 : ℚ) 1) 2) ∧
    FlagsOk (run id (reset (default_ctor (0 : ℚ) 1) 2) [Op.pop]) ∧
    (run id (reset (default_ctor (0 : ℚ) 1) 2) [Op.pop, Op.skip_unread 1]).rd_
      = 4294967295 ∧
    (run id (reset (default_ctor (0 : ℚ) 1) 2) [Op.pop, Op.skip_unread 1]).signal_.length
      = 2 ∧
    ¬ FlagsOk (run id (reset (default_ctor (0 : ℚ) 1) 2) [Op.pop, Op.skip_unread 1]) := by
  rw [reset_default_two]
  unfold FlagsOk
  decide

/-- C15 (amended): the predicate holds after `reset c` (`1 ≤ c`) and after
`set_signal sig` (`sig` non-empty) and after every sequence of push, pop on a
non-empty buffer and skip_unread that follows; push (accepted or rejected) and
pop preserve it from every state satisfying it; skip_unread preserves it in
every state reached that way. -/
theorem flags_invariant (sqrt : α → α) (s0 start : Normalizer α) (c : Nat)
    (sig : List α) (ops : List (Op α))
    (hstart : (start = s0.reset c ∧ 1 ≤ c ∧ c < 4294967296) ∨
      (start = s0.set_signal sig ∧ sig ≠ [] ∧ sig.length < 4294967296))
    (hp : pops_nonempty sqrt start ops = true) :
    FlagsOk start ∧ FlagsOk (run sqrt start ops) ∧
    (∀ (s : Normalizer α) (x : α), FlagsOk s → FlagsOk (s.push x).2) ∧
    (∀ s : Normalizer α, FlagsOk s → FlagsOk (s.pop sqrt).2) ∧
    (∀ k : Nat, FlagsOk ((run sqrt start ops).skip_unread k).2) := by
  have hinv : ∃ d, RingOk d start ∧ CursorOk d start := by
    rcases hstart with ⟨rfl, hc, hc32⟩ | ⟨rfl, h, h32⟩
    · exact ⟨c, reset_ringOk s0 c hc hc32, reset_cursorOk s0 c hc⟩
    · exact ⟨sig.length, set_signal_ringOk s0 sig h h32, set_signal_cursorOk s0 sig h h32⟩
  obtain ⟨d, hr, hk⟩ := hinv
  have hr2 := run_ringOk sqrt d start ops hr
  have hk2 := run_cursorOk sqrt d start ops hr hk hp
  refine ⟨flagsOk_of_ring d start hr hk, flagsOk_of_ring d _ hr2 hk2,
    fun s x h => push_flagsOk s x h, fun s h => pop_flagsOk sqrt s h, fun k => ?_⟩
  exact flagsOk_of_ring d _ (skip_unread_ringOk d _ k hr2) (skip_unread_cursorOk d _ k hr2 hk2)

/-- C16: after `reset c` (`1 ≤ c`) and any sequence of push and pop calls, each
pop on a non-empty buffer, the occupancy (accepted pushes minus pops) lies
between 0 and `c`; `empty()` holds exactly when it is 0, `full()` exactly when
it is `c`, and the next push is rejected exactly when it is `c`. -/
theorem occupancy_flags (sqrt : α → α) (s0 : Normalizer α) (c : Nat) (ops : List (Op α))
    (hc : 1 ≤ c) (hc32 : c < 4294967296)
    (hp : pops_nonempty sqrt (s0.reset c) ops = true) (ho : only_push_pop ops = true) :
    pop_count ops ≤ accepted_count sqrt (s0.reset c) ops ∧
    accepted_count sqrt (s0.reset c) ops - pop_count ops ≤ c ∧
    ((run sqrt (s0.reset c) ops).empty = true
      ↔ accepted_count sqrt (s0.reset c) ops - pop_count ops = 0) ∧
    ((run sqrt (s0.reset c) ops).full = true
      ↔ accepted_count sqrt (s0.reset c) ops - pop_count ops = c) ∧
    (∀ x : α, ((run sqrt (s0.reset c) ops).push x).1 = false
      ↔ accepted_count sqrt (s0.reset c) ops - pop_count ops = c) := by
  have hr0 := reset_ringOk s0 c hc hc32
  have hk0 := reset_cursorOk s0 c hc
  have hr := run_ringOk sqrt c _ ops hr0
  have hcu := run_cursorOk sqrt c _ ops hr0 hk0 hp
  have hacc := run_held sqrt c _ ops hr0 hk0 hp ho
  have h0 : held c (s0.reset c) = 0 := by simp [held, reset]
  obtain ⟨b1, b2, b3⟩ := held_flags c _ hr hcu
  have hocc : accepted_count sqrt (s0.reset c) ops - pop_count ops
      = held c (run sqrt (s0.reset c) ops) := by omega
  rw [hocc]
  refine ⟨by omega, b1, b2, b3, fun x => ?_⟩
  rw [← b3]
  cases hf : (run sqrt (s0.reset c) ops).is_full_ with
  | true => rw [push_of_full _ x hf]; simp
  | false =>
    rw [push_fst_of_not_full _ x hf]
    simp

/-- C17: in every state reached from `reset c` (`1 ≤ c`) by push, pop on a
non-empty buffer and skip_unread, and for every `k` below `unread_size()`,
`skip_unread k` sets `rd_` to `(wr_ + c - k) mod c`, where `c` is the capacity;
afterwards the samples in the slots from `rd_` up to `wr_` are exactly the last
`k` accepted samples, in push order; `is_empty_` becomes `k == 0`, `is_full_`
becomes false, and `wr_`, `n_`, `mean_`, `varsum_`, the buffer contents and the
targets are unchanged. -/
theorem skip_unread_effect (sqrt : α → α) (s0 : Normalizer α) (c : Nat) (ops : List (Op α))
    (k : Nat) (hc : 1 ≤ c) (hc32 : c < 4294967296)
    (hp : pops_nonempty sqrt (s0.reset c) ops = true)
    (hk : k < (run sqrt (s0.reset c) ops).unread_size) :
    (run sqrt (s0.reset c) ops).signal_.length = c ∧
    ((run sqrt (s0.reset c) ops).skip_unread k).2.rd_
      = ((run sqrt (s0.reset c) ops).wr_ + c - k) % c ∧
    k ≤ (accepted_samples sqrt (s0.reset c) ops).length ∧
    unread_slots ((run sqrt (s0.reset c) ops).skip_unread k).2
      = (accepted_samples sqrt (s0.reset c) ops).drop
          ((accepted_samples sqrt (s0.reset c) ops).length - k) ∧
    ((run sqrt (s0.reset c) ops).skip_unread k).2.is_empty_ = decide (k = 0) ∧
    ((run sqrt (s0.reset c) ops).skip_unread k).2.is_full_ = false ∧
    ((run sqrt (s0.reset c) ops).skip_unread k).2.wr_ = (run sqrt (s0.reset c) ops).wr_ ∧
    ((run sqrt (s0.reset c) ops).skip_unread k).2.n_ = (run sqrt (s0.reset c) ops).n_ ∧
    ((run sqrt (s0.reset c) ops).skip_unread k).2.mean_
      = (run sqrt (s0.reset c) ops).mean_ ∧
    ((run sqrt (s0.reset c) ops).skip_unread k).2.varsum_
      = (run sqrt (s0.reset c) ops).varsum_ ∧
    ((run sqrt (s0.reset c) ops).skip_unread k).2.signal_
      = (run sqrt (s0.reset c) ops).signal_ ∧
    ((run sqrt (s0.reset c) ops).skip_unread k).2.tgt_mean_
      = (run sqrt (s0.reset c) ops).tgt_mean_ ∧
    ((run sqrt (s0.reset c) ops).skip_unread k).2.tgt_stdv_
      = (run sqrt (s0.reset c) ops).tgt_stdv_ := by
  have hr0 := reset_ringOk s0 c hc hc32
  have hk0 := reset_cursorOk s0 c hc
  have hr := run_ringOk sqrt c _ ops hr0
  have hcu := run_cursorOk sqrt c _ ops hr0 hk0 hp
  have hrec0 : recent (s0.reset c) = ([] : List α).drop (([] : List α).length - (s0.reset c).n_) := by
    have hl : (s0.reset c).signal_.length = c := hr0.1
    have hn0 : (s0.reset c).n_ = 0 := rfl
    simp only [recent, hl, hn0, if_pos (show 0 < c by omega)]
    simp
  obtain ⟨hh, hn⟩ := run_recent sqrt c (s0.reset c) ops [] hr0 hrec0 (Nat.zero_le _)
  rw [List.nil_append] at hh hn
  have hslots := skip_unread_slots c _ k hr hcu hk
  have hle := unread_size_le_n c _ hr hcu
  have hnew := skip_unread_new_rd c _ k hr hcu hk
  have hu := unread_size_eq c _ hr hcu
  obtain ⟨e1, e2, e3, e4, e5, e6, e7⟩ := skip_unread_frame (run sqrt (s0.reset c) ops) k
  have hshape := skip_unread_of_lt _ k hk
  generalize run sqrt (s0.reset c) ops = s at *
  generalize accepted_samples sqrt (s0.reset c) ops = acc at *
  refine ⟨hr.1, ?_, by omega, ?_, ?_, ?_, e1, e2, e3, e4, e5, e6, e7⟩
  · rw [hshape]
    simp only [hnew]
    rw [hu] at hk
    obtain ⟨hlen, hcp, _, hnc, hwr, hgrow⟩ := hr
    obtain ⟨k1, k2, k3, k4, k5, k6⟩ := hcu
    by_cases hkw : k ≤ s.wr_
    · rw [if_pos hkw, show s.wr_ + c - k = c + (s.wr_ - k) by omega, Nat.add_mod_left,
        Nat.mod_eq_of_lt (by omega)]
    · have hrw : ¬ s.rd_ < s.wr_ := by
        intro hlt2
        rw [if_pos hlt2] at hk
        omega
      rw [if_neg hrw] at hk
      have hnc2 : s.n_ = c := by
        by_contra hcon
        have hlt3 : s.n_ < c := by omega
        have := hgrow hlt3
        have := k2 hlt3
        omega
      rw [if_neg hkw, Nat.mod_eq_of_lt (by omega), hnc2]
      omega
  · rw [hslots, hh, List.drop_drop]
    congr 1
    omega
  · rw [hshape]
  · rw [hshape]

/-- C13: feeding the seed hits (ref 100 to 110, evt 5 to 6, len 10), (ref 111 to
121, evt 6 to 7, len 10) and (ref 500 to 510, evt 50 to 51, len 10), in this
order, through `add_seeds` on an empty tracker, with a maximum allowed gap that
tolerates the gaps 0 and 1 (from 2 up to 379), leaves exactly two chains in
`locations`: one spanning ref 100 up to 121 with `total_len_` 20 and one
spanning ref 500 up to 510 with `total_len_` 10. -/
theorem add_seeds_example (max_gap : Int) (hlo : 2 ≤ max_gap) (hhi : max_gap ≤ 379) :
    (SeedTracker.add_seeds max_gap SeedTracker.init example_seeds).locations
      = [example_chain_a, example_chain_b] ∧
    (SeedTracker.add_seeds max_gap SeedTracker.init example_seeds).locations.length = 2 ∧
    example_chain_a.ref_st_.start_ = 100 ∧ example_chain_a.ref_en_ = 121 ∧
    example_chain_a.total_len_ = 20 ∧
    example_chain_b.ref_st_.start_ = 500 ∧ example_chain_b.ref_en_ = 510 ∧
    example_chain_b.total_len_ = 10 := by
  have e0 : (0 : Int) < max_gap := by omega
  have e1 : (1 : Int) < max_gap := by omega
  have e3 : ¬ ((379 : Int) < max_gap) := by omega
  have hloc : (SeedTracker.add_seeds max_gap SeedTracker.init example_seeds).locations
      = [example_chain_a, example_chain_b] := by
    simp [SeedTracker.add_seeds, SeedTracker.add_seed, SeedTracker.best_candidate,
      SeedTracker.mergeable, SeedTracker.init, example_seeds, ReadAln.of_seed,
      ReadAln.update_next, SeedTracker.insert_chain, example_chain_a, example_chain_b,
      e0, e1, e3]
  refine ⟨hloc, ?_, rfl, rfl, rfl, rfl, rfl, rfl⟩
  rw [hloc]
  rfl

/-- C14: for every tracker state and every `min_len`, `get_alignments min_len`
returns exactly the chains of `locations` whose `total_len_` is at least
`min_len`, each as often as it occurs there (once, when `locations` has no
repetition), ordered by non-increasing `total_len_`, and leaves the tracker
unchanged. -/
theorem get_alignments_spec (t : SeedTracker) (min_len : Int) :
    (t.get_alignments min_len).1.Perm
      (t.locations.filter (fun c => decide (min_len ≤ c.total_len_))) ∧
    (∀ c : ReadAln, c ∈ (t.get_alignments min_len).1
      ↔ (c ∈ t.locations ∧ min_len ≤ c.total_len_)) ∧
    (t.locations.Nodup → (t.get_alignments min_len).1.Nodup) ∧
    (t.get_alignments min_len).1.Pairwise (fun a b => b.total_len_ ≤ a.total_len_) ∧
    (t.get_alignments min_len).2 = t := by
  have hperm := sort_by_len_perm (t.locations.filter (fun c => decide (min_len ≤ c.total_len_)))
  refine ⟨hperm, ?_, ?_, sort_by_len_pairwise _, rfl⟩
  · intro c
    simp only [SeedTracker.get_alignments]
    rw [hperm.mem_iff, List.mem_filter]
    simp
  · intro hnd
    simp only [SeedTracker.get_alignments]
    exact hperm.nodup_iff.mpr (hnd.filter _)

/-- The specification's queries on the example state: `get_alignments 15` returns
exactly the first chain and `get_alignments 25` returns nothing. -/
theorem get_alignments_example :
    ((SeedTracker.add_seeds 2 SeedTracker.init example_seeds).get_alignments 15).1
      = [example_chain_a] ∧
    ((SeedTracker.add_seeds 2 SeedTracker.init example_seeds).get_alignments 25).1 = [] := by
  decide

/-- The example with a maximum allowed gap of 1: the reference gap 1 between the
first two seed hits is not below it, and three chains remain. -/
theorem add_seeds_example_gap_one :
    (SeedTracker.add_seeds 1 SeedTracker.init example_seeds).locations.length = 3 := by
  decide

/-- The calls of `demo_calls` on a buffer of capacity 2: the accepted samples are
1, 3, 4 (the push of 9 is rejected), the two pops read 1 and 3, and 4 is left
unread. -/
theorem fifo_demo :
    accepted_samples id (reset (default_ctor (0 : ℚ) 1) 2) demo_calls = [1, 3, 4] ∧
    popped_raw id (reset (default_ctor (0 : ℚ) 1) 2) demo_calls = [1, 3] ∧
    unread_slots (run id (reset (default_ctor (0 : ℚ) 1) 2) demo_calls) = [4] := by
  rw [reset_default_two]
  refine ⟨?_, ?_, ?_⟩ <;>
    simp [demo_calls, accepted_samples, popped_raw, unread_slots, run, step, push, pop]

/-! ## The claims at concrete inputs -/

/-- C2 at a full buffer loaded by `set_signal [1, 2]` and at the empty buffer after
`reset 2`. -/
theorem push_full_rejected_witness :
    ((set_signal (default_ctor (0 : ℚ) 1) [1, 2]).full = true ∧
      (set_signal (default_ctor (0 : ℚ) 1) [1, 2]).push 7
        = (false, set_signal (default_ctor (0 : ℚ) 1) [1, 2])) ∧
    ((reset (default_ctor (0 : ℚ) 1) 2).full = false ∧
      ((reset (default_ctor (0 : ℚ) 1) 2).push 7).1 = true) :=
  ⟨⟨rfl, (push_full_rejected (set_signal (default_ctor (0 : ℚ) 1) [1, 2]) 7).1 rfl⟩,
   ⟨rfl, (push_full_rejected (reset (default_ctor (0 : ℚ) 1) 2) 7).2 rfl⟩⟩

/-- C6 after `reset 2` and one push, keeping one sample of the one held. -/
theorem skip_unread_noop_witness :
    (run id (reset (default_ctor (0 : ℚ) 1) 2) [Op.push 5]).unread_size ≤ 1 ∧
    (run id (reset (default_ctor (0 : ℚ) 1) 2) [Op.push 5]).skip_unread 1
      = (0, run id (reset (default_ctor (0 : ℚ) 1) 2) [Op.push 5]) :=
  have h : (run id (reset (default_ctor (0 : ℚ) 1) 2) [Op.push 5]).unread_size ≤ 1 := by
    rw [reset_default_two]; decide
  ⟨h, skip_unread_noop _ 1 h⟩

/-- After `reset 2` and two pushes, keeping one of the two unread samples. -/
theorem skip_unread_returns_discarded_witness :
    1 ≤ 2 ∧ 2 < 4294967296 ∧
    pops_nonempty id (reset (default_ctor (0 : ℚ) 1) 2) [Op.push 1, Op.push 3] = true ∧
    1 < (run id (reset (default_ctor (0 : ℚ) 1) 2) [Op.push 1, Op.push 3]).unread_size ∧
    ((run id (reset (default_ctor (0 : ℚ) 1) 2) [Op.push 1, Op.push 3]).skip_unread 1).1
      = (run id (reset (default_ctor (0 : ℚ) 1) 2) [Op.push 1, Op.push 3]).unread_size - 1 :=
  have h1 : pops_nonempty id (reset (default_ctor (0 : ℚ) 1) 2) [Op.push 1, Op.push 3]
      = true := by
    rw [reset_default_two]; decide
  have h2 : 1 < (run id (reset (default_ctor (0 : ℚ) 1) 2)
      [Op.push 1, Op.push 3]).unread_size := by
    rw [reset_default_two]; decide
  ⟨by decide, by decide, h1, h2,
    skip_unread_returns_discarded id (default_ctor (0 : ℚ) 1) 2 [Op.push 1, Op.push 3] 1
      (by decide) (by decide) h1 h2⟩

/-- C7 on the batch `[1, 2]` followed by a pop and the push of `5`. -/
theorem rolling_update_exact_witness :
    ([1, 2] : List ℚ) ≠ [] ∧ ([1, 2] : List ℚ).length < 4294967296 ∧
    (run id ((default_ctor (0 : ℚ) 1).set_signal [1, 2]) [Op.pop, Op.push 5]).mean_
      = amean (run id ((default_ctor (0 : ℚ) 1).set_signal [1, 2])
          [Op.pop, Op.push 5]).signal_ ∧
    (run id ((default_ctor (0 : ℚ) 1).set_signal [1, 2]) [Op.pop, Op.push 5]).varsum_
      = sqdev (run id ((default_ctor (0 : ℚ) 1).set_signal [1, 2])
          [Op.pop, Op.push 5]).signal_
          (amean (run id ((default_ctor (0 : ℚ) 1).set_signal [1, 2])
            [Op.pop, Op.push 5]).signal_) :=
  ⟨by simp, by simp,
    rolling_update_exact id (default_ctor (0 : ℚ) 1) [1, 2] [Op.pop, Op.push 5]
      (by simp) (by simp)⟩

/-- C8 at capacity 2 with the pushes `1`, `3` and a pop in between. -/
theorem welford_matches_batch_witness :
    1 ≤ 2 ∧ 2 < 4294967296 ∧
    pushes_accepted id (reset (default_ctor (0 : ℚ) 1) 2)
      [Op.push 1, Op.pop, Op.push 3] = true ∧
    (pushed [Op.push (1 : ℚ), Op.pop, Op.push 3]).length ≤ 2 ∧
    (run id (reset (default_ctor (0 : ℚ) 1) 2) [Op.push 1, Op.pop, Op.push 3]).n_
      = (pushed [Op.push (1 : ℚ), Op.pop, Op.push 3]).length ∧
    (run id (reset (default_ctor (0 : ℚ) 1) 2) [Op.push 1, Op.pop, Op.push 3]).mean_
      = amean (pushed [Op.push (1 : ℚ), Op.pop, Op.push 3]) ∧
    (run id (reset (default_ctor (0 : ℚ) 1) 2) [Op.push 1, Op.pop, Op.push 3]).varsum_
      = sqdev (pushed [Op.push (1 : ℚ), Op.pop, Op.push 3])
          (amean (pushed [Op.push (1 : ℚ), Op.pop, Op.push 3])) ∧
    (pushed [Op.push (1 : ℚ), Op.pop, Op.push 3] ≠ [] →
      (run id (reset (default_ctor (0 : ℚ) 1) 2) [Op.push 1, Op.pop, Op.push 3]).mean_
        = ((default_ctor (0 : ℚ) 1).set_signal
            (pushed [Op.push (1 : ℚ), Op.pop, Op.push 3])).mean_ ∧
      (run id (reset (default_ctor (0 : ℚ) 1) 2) [Op.push 1, Op.pop, Op.push 3]).varsum_
        = ((default_ctor (0 : ℚ) 1).set_signal
            (pushed [Op.push (1 : ℚ), Op.pop, Op.push 3])).varsum_) :=
  have h1 : pushes_accepted id (reset (default_ctor (0 : ℚ) 1) 2)
      [Op.push 1, Op.pop, Op.push 3] = true := by
    rw [reset_default_two]; decide
  have h2 : (pushed [Op.push (1 : ℚ), Op.pop, Op.push 3]).length ≤ 2 := by decide
  ⟨by decide, by decide, h1, h2,
    welford_matches_batch id (default_ctor (0 : ℚ) 1) 2 [Op.push 1, Op.pop, Op.push 3]
      (by decide) (by decide) h1 h2⟩

/-- C9 (amended) after `reset 2`, two pushes and a pop. -/
theorem moments_of_window_witness :
    ((reset (default_ctor (0 : ℚ) 1) 2 = (default_ctor (0 : ℚ) 1).reset 2 ∧ 1 ≤ 2 ∧
        2 < 4294967296) ∨
      (reset (default_ctor (0 : ℚ) 1) 2 = (default_ctor (0 : ℚ) 1).set_signal [] ∧
        ([] : List ℚ) ≠ [] ∧ ([] : List ℚ).length < 4294967296)) ∧
    (run id (reset (default_ctor (0 : ℚ) 1) 2) [Op.push 1, Op.push 3, Op.pop]).mean_
      = amean (window
          (run id (reset (default_ctor (0 : ℚ) 1) 2) [Op.push 1, Op.push 3, Op.pop])) ∧
    (run id (reset (default_ctor (0 : ℚ) 1) 2) [Op.push 1, Op.push 3, Op.pop]).varsum_
      = sqdev (window
          (run id (reset (default_ctor (0 : ℚ) 1) 2) [Op.push 1, Op.push 3, Op.pop]))
          (amean (window
            (run id (reset (default_ctor (0 : ℚ) 1) 2) [Op.push 1, Op.push 3, Op.pop]))) :=
  ⟨Or.inl ⟨rfl, by decide, by decide⟩,
    moments_of_window id (default_ctor (0 : ℚ) 1) (reset (default_ctor (0 : ℚ) 1) 2) 2 []
      [Op.push 1, Op.push 3, Op.pop] (Or.inl ⟨rfl, by decide, by decide⟩)⟩

/-- C10 (amended) after `reset 2` and the pushes `1`, `3`. -/
theorem pop_defined_iff_varsum_ne_zero_witness :
    1 ≤ 2 ∧ 2 < 4294967296 ∧
    pops_nonempty Real.sqrt (reset (default_ctor (0 : ℝ) 1) 2) [Op.push 1, Op.push 3]
      = true ∧
    (run Real.sqrt (reset (default_ctor (0 : ℝ) 1) 2) [Op.push 1, Op.push 3]).empty
      = false ∧
    (run Real.sqrt (reset (default_ctor (0 : ℝ) 1) 2) [Op.push 1, Op.push 3]).n_ ≠ 0 ∧
    (Real.sqrt ((run Real.sqrt (reset (default_ctor (0 : ℝ) 1) 2)
          [Op.push 1, Op.push 3]).varsum_ /
        ((run Real.sqrt (reset (default_ctor (0 : ℝ) 1) 2)
          [Op.push 1, Op.push 3]).n_ : ℝ)) ≠ 0
      ↔ (run Real.sqrt (reset (default_ctor (0 : ℝ) 1) 2)
          [Op.push 1, Op.push 3]).varsum_ ≠ 0) ∧
    ((((run Real.sqrt (reset (default_ctor (0 : ℝ) 1) 2)
          [Op.push 1, Op.push 3]).pop Real.sqrt).1).isSome = true
      ↔ (run Real.sqrt (reset (default_ctor (0 : ℝ) 1) 2)
          [Op.push 1, Op.push 3]).varsum_ ≠ 0) :=
  have h1 : pops_nonempty Real.sqrt (reset (default_ctor (0 : ℝ) 1) 2)
      [Op.push 1, Op.push 3] = true := by
    simp [pops_nonempty]
  have h2 : (run Real.sqrt (reset (default_ctor (0 : ℝ) 1) 2)
      [Op.push 1, Op.push 3]).empty = false := by
    rw [reset_default_two]; simp [run, step, push, empty]
  ⟨by decide, by decide, h1, h2,
    pop_defined_iff_varsum_ne_zero (default_ctor (0 : ℝ) 1) 2 [Op.push 1, Op.push 3]
      (by decide) (by decide) h1 h2⟩

/-- C1 on the batch `[0, 2]` with target mean 10 and target deviation 3. -/
theorem batch_normalized_moments_witness :
    ([0, 2] : List ℝ) ≠ [] ∧ ([0, 2] : List ℝ).length < 4294967296 ∧
    pop_variance ([0, 2] : List ℝ) ≠ 0 ∧ (0 : ℝ) ≤ 3 ∧
    ∃ out : List ℝ, out.length = ([0, 2] : List ℝ).length ∧
      (∀ i, i < ([0, 2] : List ℝ).length →
        at_ Real.sqrt (((default_ctor (0 : ℝ) 1).set_target 10 3).set_signal [0, 2]) i
          = out[i]?) ∧
      amean out = 10 ∧ Real.sqrt (pop_variance out) = 3 :=
  have hv : pop_variance ([0, 2] : List ℝ) ≠ 0 := by
    norm_num [pop_variance, sqdev, amean]
  ⟨by simp, by simp, hv, by norm_num,
    batch_normalized_moments (default_ctor (0 : ℝ) 1) [0, 2] 10 3 (by simp) (by simp) hv
      (by norm_num)⟩

/-- C11 at the full buffer loaded by `set_signal [1, 2]`, reset to capacity 3. -/
theorem reset_clears_witness :
    (set_signal (default_ctor (0 : ℚ) 1) [1, 2]).signal_ ≠ [] ∧
    ((set_signal (default_ctor (0 : ℚ) 1) [1, 2]).reset 3).n_ = 0 ∧
    ((set_signal (default_ctor (0 : ℚ) 1) [1, 2]).reset 3).rd_ = 0 ∧
    ((set_signal (default_ctor (0 : ℚ) 1) [1, 2]).reset 3).wr_ = 0 ∧
    ((set_signal (default_ctor (0 : ℚ) 1) [1, 2]).reset 3).mean_ = 0 ∧
    ((set_signal (default_ctor (0 : ℚ) 1) [1, 2]).reset 3).varsum_ = 0 ∧
    ((set_signal (default_ctor (0 : ℚ) 1) [1, 2]).reset 3).empty = true ∧
    ((set_signal (default_ctor (0 : ℚ) 1) [1, 2]).reset 3).full = false ∧
    ((set_signal (default_ctor (0 : ℚ) 1) [1, 2]).reset 3).signal_.length
      = (if 3 ≠ 0 ∧ 3 ≠ (set_signal (default_ctor (0 : ℚ) 1) [1, 2]).signal_.length then 3
         else (set_signal (default_ctor (0 : ℚ) 1) [1, 2]).signal_.length) ∧
    ((set_signal (default_ctor (0 : ℚ) 1) [1, 2]).reset 3).signal_.head? = some 0 ∧
    ((set_signal (default_ctor (0 : ℚ) 1) [1, 2]).reset 3).tgt_mean_
      = (set_signal (default_ctor (0 : ℚ) 1) [1, 2]).tgt_mean_ ∧
    ((set_signal (default_ctor (0 : ℚ) 1) [1, 2]).reset 3).tgt_stdv_
      = (set_signal (default_ctor (0 : ℚ) 1) [1, 2]).tgt_stdv_ :=
  have h : (set_signal (default_ctor (0 : ℚ) 1) [1, 2]).signal_ ≠ [] := by
    simp [set_signal]
  ⟨h, reset_clears (set_signal (default_ctor (0 : ℚ) 1) [1, 2]) 3 h⟩

/-- C12 at the full buffer loaded by `set_signal [1, 2]`, where `push 7` has just
been rejected. -/
theorem pop_releases_backpressure_witness :
    1 ≤ (set_signal (default_ctor (0 : ℚ) 1) [1, 2]).signal_.length ∧
    ((set_signal (default_ctor (0 : ℚ) 1) [1, 2]).push 7).1 = false ∧
    ((((set_signal (default_ctor (0 : ℚ) 1) [1, 2]).push 7).2.pop id).2.push 7).1 = true :=
  have h : 1 ≤ (set_signal (default_ctor (0 : ℚ) 1) [1, 2]).signal_.length := by
    simp [set_signal]
  ⟨h, rfl, pop_releases_backpressure id
    ((set_signal (default_ctor (0 : ℚ) 1) [1, 2]).push 7).2 7 h⟩

/-- C15 (amended) after `reset 2`, two pushes, a pop and `skip_unread 0`. -/
theorem flags_invariant_witness :
    ((reset (default_ctor (0 : ℚ) 1) 2 = (default_ctor (0 : ℚ) 1).reset 2 ∧ 1 ≤ 2 ∧
        2 < 4294967296) ∨
      (reset (default_ctor (0 : ℚ) 1) 2 = (default_ctor (0 : ℚ) 1).set_signal [] ∧
        ([] : List ℚ) ≠ [] ∧ ([] : List ℚ).length < 4294967296)) ∧
    pops_nonempty id (reset (default_ctor (0 : ℚ) 1) 2)
      [Op.push 1, Op.push 3, Op.pop, Op.skip_unread 0] = true ∧
    FlagsOk (reset (default_ctor (0 : ℚ) 1) 2) ∧
    FlagsOk (run id (reset (default_ctor (0 : ℚ) 1) 2)
      [Op.push 1, Op.push 3, Op.pop, Op.skip_unread 0]) ∧
    (∀ (s : Normalizer ℚ) (x : ℚ), FlagsOk s → FlagsOk (s.push x).2) ∧
    (∀ s : Normalizer ℚ, FlagsOk s → FlagsOk (s.pop id).2) ∧
    (∀ k : Nat, FlagsOk ((run id (reset (default_ctor (0 : ℚ) 1) 2)
      [Op.push 1, Op.push 3, Op.pop, Op.skip_unread 0]).skip_unread k).2) :=
  have hp : pops_nonempty id (reset (default_ctor (0 : ℚ) 1) 2)
      [Op.push 1, Op.push 3, Op.pop, Op.skip_unread 0] = true := by
    rw [reset_default_two]; decide
  ⟨Or.inl ⟨rfl, by decide, by decide⟩, hp,
    flags_invariant id (default_ctor (0 : ℚ) 1) (reset (default_ctor (0 : ℚ) 1) 2) 2 []
      [Op.push 1, Op.push 3, Op.pop, Op.skip_unread 0]
      (Or.inl ⟨rfl, by decide, by decide⟩) hp⟩

/-- C16 at capacity 2 on `demo_calls`: three accepted pushes and two pops. -/
theorem occupancy_flags_witness :
    1 ≤ 2 ∧ 2 < 4294967296 ∧
    pops_nonempty id (reset (default_ctor (0 : ℚ) 1) 2) demo_calls = true ∧
    only_push_pop demo_calls = true ∧
    pop_count demo_calls ≤ accepted_count id (reset (default_ctor (0 : ℚ) 1) 2) demo_calls ∧
    accepted_count id (reset (default_ctor (0 : ℚ) 1) 2) demo_calls - pop_count demo_calls ≤ 2 ∧
    ((run id (reset (default_ctor (0 : ℚ) 1) 2) demo_calls).empty = true
      ↔ accepted_count id (reset (default_ctor (0 : ℚ) 1) 2) demo_calls - pop_count demo_calls =
          0) ∧
    ((run id (reset (default_ctor (0 : ℚ) 1) 2) demo_calls).full = true
      ↔ accepted_count id (reset (default_ctor (0 : ℚ) 1) 2) demo_calls - pop_count demo_calls =
          2) ∧
    (∀ x : ℚ, ((run id (reset (default_ctor (0 : ℚ) 1) 2) demo_calls).push x).1 = false
      ↔ accepted_count id (reset (default_ctor (0 : ℚ) 1) 2) demo_calls - pop_count demo_calls =
          2) :=
  have h1 : pops_nonempty id (reset (default_ctor (0 : ℚ) 1) 2) demo_calls = true := by
    rw [reset_default_two]; decide
  have h2 : only_push_pop demo_calls = true := by decide
  ⟨by decide, by decide, h1, h2,
    occupancy_flags id (default_ctor (0 : ℚ) 1) 2 demo_calls (by decide) (by decide) h1 h2⟩

/-- C17 at capacity 2 after the pushes of 1 and 3, keeping one sample. -/
theorem skip_unread_effect_witness :
    1 ≤ 2 ∧ 2 < 4294967296 ∧
    pops_nonempty id (reset (default_ctor (0 : ℚ) 1) 2) [Op.push 1, Op.push 3] = true ∧
    1 < (run id (reset (default_ctor (0 : ℚ) 1) 2) [Op.push 1, Op.push 3]).unread_size ∧
    (run id (reset (default_ctor (0 : ℚ) 1) 2) [Op.push 1, Op.push 3]).signal_.length = 2 ∧
    ((run id (reset (default_ctor (0 : ℚ) 1) 2) [Op.push 1, Op.push 3]).skip_unread 1).2.rd_ =
        ((run id (reset (default_ctor (0 : ℚ) 1) 2) [Op.push 1, Op.push 3]).wr_ + 2 - 1) % 2 ∧
    1 ≤ (accepted_samples id (reset (default_ctor (0 : ℚ) 1) 2) [Op.push 1, Op.push 3]).length ∧
    unread_slots ((run id (reset (default_ctor (0 : ℚ) 1) 2) [Op.push 1, Op.push 3]).skip_unread
        1).2 = (accepted_samples id (reset (default_ctor (0 : ℚ) 1) 2) [Op.push 1, Op.push
        3]).drop ((accepted_samples id (reset (default_ctor (0 : ℚ) 1) 2) [Op.push 1, Op.push
        3]).length - 1) ∧
    ((run id (reset (default_ctor (0 : ℚ) 1) 2) [Op.push 1, Op.push 3]).skip_unread 1).2.is_empty_
        = decide (1 = 0) ∧
    ((run id (reset (default_ctor (0 : ℚ) 1) 2) [Op.push 1, Op.push 3]).skip_unread 1).2.is_full_
        = false ∧
    ((run id (reset (default_ctor (0 : ℚ) 1) 2) [Op.push 1, Op.push 3]).skip_unread 1).2.wr_ =
        (run id (reset (default_ctor (0 : ℚ) 1) 2) [Op.push 1, Op.push 3]).wr_ ∧
    ((run id (reset (default_ctor (0 : ℚ) 1) 2) [Op.push 1, Op.push 3]).skip_unread 1).2.n_ = (run
        id (reset (default_ctor (0 : ℚ) 1) 2) [Op.push 1, Op.push 3]).n_ ∧
    ((run id (reset (default_ctor (0 : ℚ) 1) 2) [Op.push 1, Op.push 3]).skip_unread 1).2.mean_ =
        (run id (reset (default_ctor (0 : ℚ) 1) 2) [Op.push 1, Op.push 3]).mean_ ∧
    ((run id (reset (default_ctor (0 : ℚ) 1) 2) [Op.push 1, Op.push 3]).skip_unread 1).2.varsum_ =
        (run id (reset (default_ctor (0 : ℚ) 1) 2) [Op.push 1, Op.push 3]).varsum_ ∧
    ((run id (reset (default_ctor (0 : ℚ) 1) 2) [Op.push 1, Op.push 3]).skip_unread 1).2.signal_ =
        (run id (reset (default_ctor (0 : ℚ) 1) 2) [Op.push 1, Op.push 3]).signal_ ∧
    ((run id (reset (default_ctor (0 : ℚ) 1) 2) [Op.push 1, Op.push 3]).skip_unread 1).2.tgt_mean_
        = (run id (reset (default_ctor (0 : ℚ) 1) 2) [Op.push 1, Op.push 3]).tgt_mean_ ∧
    ((run id (reset (default_ctor (0 : ℚ) 1) 2) [Op.push 1, Op.push 3]).skip_unread 1).2.tgt_stdv_
        = (run id (reset (default_ctor (0 : ℚ) 1) 2) [Op.push 1, Op.push 3]).tgt_stdv_ :=
  have h1 : pops_nonempty id (reset (default_ctor (0 : ℚ) 1) 2) [Op.push 1, Op.push 3] = true := by
    rw [reset_default_two]; decide
  have h2 : 1 < (run id (reset (default_ctor (0 : ℚ) 1) 2) [Op.push 1, Op.push 3]).unread_size := by
    rw [reset_default_two]; decide
  ⟨by decide, by decide, h1, h2,
    skip_unread_effect id (default_ctor (0 : ℚ) 1) 2 [Op.push 1, Op.push 3] 1 (by decide) (by
        decide) h1 h2⟩

/-- C13 at the maximum allowed gap 2. -/
theorem add_seeds_example_witness :
    (2 : Int) ≤ 2 ∧ (2 : Int) ≤ 379 ∧
    (SeedTracker.add_seeds 2 SeedTracker.init example_seeds).locations
      = [example_chain_a, example_chain_b] ∧
    (SeedTracker.add_seeds 2 SeedTracker.init example_seeds).locations.length = 2 ∧
    example_chain_a.ref_st_.start_ = 100 ∧ example_chain_a.ref_en_ = 121 ∧
    example_chain_a.total_len_ = 20 ∧
    example_chain_b.ref_st_.start_ = 500 ∧ example_chain_b.ref_en_ = 510 ∧
    example_chain_b.total_len_ = 10 :=
  ⟨by decide, by decide, add_seeds_example 2 (by decide) (by decide)⟩

/-- C14 on the example state with `min_len` 15. -/
theorem get_alignments_spec_witness :
    (SeedTracker.add_seeds 2 SeedTracker.init example_seeds).locations.Nodup ∧
    ((SeedTracker.add_seeds 2 SeedTracker.init example_seeds).get_alignments 15).1.Nodup ∧
    ((SeedTracker.add_seeds 2 SeedTracker.init example_seeds).get_alignments 15).1.Perm
      ((SeedTracker.add_seeds 2 SeedTracker.init example_seeds).locations.filter
        (fun c => decide (15 ≤ c.total_len_))) ∧
    ((SeedTracker.add_seeds 2 SeedTracker.init example_seeds).get_alignments 15).1.Pairwise
      (fun a b => b.total_len_ ≤ a.total_len_) ∧
    ((SeedTracker.add_seeds 2 SeedTracker.init example_seeds).get_alignments 15).2
      = SeedTracker.add_seeds 2 SeedTracker.init example_seeds :=
  have hnd : (SeedTracker.add_seeds 2 SeedTracker.init example_seeds).locations.Nodup := by
    decide
  ⟨hnd,
    (get_alignments_spec (SeedTracker.add_seeds 2 SeedTracker.init example_seeds) 15).2.2.1 hnd,
    (get_alignments_spec (SeedTracker.add_seeds 2 SeedTracker.init example_seeds) 15).1,
    (get_alignments_spec (SeedTracker.add_seeds 2 SeedTracker.init example_seeds) 15).2.2.2.1,
    (get_alignments_spec (SeedTracker.add_seeds 2 SeedTracker.init example_seeds) 15).2.2.2.2⟩

end Claims

end Uncalled
